import Mathlib

/-!
# Verification of the tabview spatial-layout core (`src/items.js`)

This file gives a shallow embedding of the layout core of the repository:
the geometry value types (`Point`, `Rect`), the size validator
(`Items.calcValidSize`), the grid arranger (`Items.arrange`), the push-away
resolver (`Item.pushAway` with its propagate / squish / unsquish / commit
phases, `Items.unsquish`), and the registry bookkeeping
(`Items.pushArrange`, `Items.resumeArrange`, `Items.unregister`).

Numbers are modelled as rationals (`ℚ`), which is exact for every
computation the source performs on the inputs considered here (additions,
subtractions, `max`, halving, division by a generation count).
Generations are `ℕ∞ = WithTop ℕ` (the source uses `Infinity` as the
"unaffected" marker).  DOM / UI state (animation, trenches, persistence)
is outside the modelled core, exactly as the specification scopes it.
-/

namespace Tabview

/-- Modelled from the spec: the `Point {x, y}` value type of the geometry
layer (its source, Firefox's `utils.js`, is not part of this repository).  -/
structure Point where
  x : ℚ
  y : ℚ
deriving DecidableEq, Repr

/-- Modelled from the spec: the `Rect {left, top, width, height}` value type
of the geometry layer (its source, Firefox's `utils.js`, is not part of this
repository). -/
structure Rect where
  left : ℚ
  top : ℚ
  width : ℚ
  height : ℚ
deriving DecidableEq, Repr

namespace Rect

/-- Modelled from the spec: derived `right = left + width`. -/
def right (r : Rect) : ℚ := r.left + r.width

/-- Modelled from the spec: derived `bottom = top + height`. -/
def bottom (r : Rect) : ℚ := r.top + r.height

/-- Modelled from the spec: the center point of a rectangle. -/
def center (r : Rect) : Point := ⟨r.left + r.width / 2, r.top + r.height / 2⟩

/-- Modelled from the spec: `inset(dx, dy)` shrinks (grows for negative
arguments) the rectangle symmetrically about its center. -/
def inset (r : Rect) (dx dy : ℚ) : Rect :=
  ⟨r.left + dx, r.top + dy, r.width - 2 * dx, r.height - 2 * dy⟩

/-- Modelled from the spec: `offset` translates the rectangle by a point. -/
def offsetBy (r : Rect) (p : Point) : Rect :=
  ⟨r.left + p.x, r.top + p.y, r.width, r.height⟩

/-- Modelled from the spec: `intersects` — a positive-area overlap is
required (`intersection` of merely touching rectangles is the disjoint
sentinel, "never a negative-size rect"), so the inequalities are strict. -/
def intersects (r s : Rect) : Bool :=
  decide (s.right > r.left) && decide (s.left < r.right) &&
  decide (s.bottom > r.top) && decide (s.top < r.bottom)

/-- Modelled from the spec: `contains` for a point — the point lies strictly
inside the rectangle. -/
def containsPoint (r : Rect) (p : Point) : Bool :=
  decide (p.x > r.left) && decide (p.x < r.right) &&
  decide (p.y > r.top) && decide (p.y < r.bottom)

/-- Modelled from the spec: `contains` for a rectangle — the argument lies
strictly inside the receiver. -/
def containsRect (r : Rect) (s : Rect) : Bool :=
  decide (s.left > r.left) && decide (s.right < r.right) &&
  decide (s.top > r.top) && decide (s.bottom < r.bottom)

/-- Modelled from the spec: a rectangle lying fully within the designated
safe window bounds (edge contact allowed; this is the "stay on-screen"
condition the squish and unsquish passes enforce with `<` / `>` overflow
tests on each side). -/
def within (r page : Rect) : Bool :=
  decide (page.left ≤ r.left) && decide (r.right ≤ page.right) &&
  decide (page.top ≤ r.top) && decide (r.bottom ≤ page.bottom)

end Rect

/-! ## Configuration constants (`Items` singleton, `src/items.js`) -/

/-- `Items.minItemWidth` (src/items.js line 1323). -/
def minItemWidth : ℚ := 125

/-- `Items.minItemHeight` (src/items.js line 1322). -/
def minItemHeight : ℚ := 110

/-- `Items.defaultGutter` (src/items.js line 1329). -/
def defaultGutter : ℚ := 15

/-- `Math.floor(Items.defaultGutter / 2)` — the buffer margin used by
`Item.pushAway` (src/items.js line 448). -/
def pushBuffer : ℚ := (⌊defaultGutter / 2⌋ : ℤ)

/-- `Items.calcValidSize` (src/items.js lines 1866–1873): clamps a requested
size up to the global minimums.  The `options` argument of the source is
unused there and omitted. -/
def calcValidSize (size : Point) : Point :=
  ⟨max size.x minItemWidth, max size.y minItemHeight⟩

/-- The precondition asserted by `Items.calcValidSize`
(src/items.js line 1868). -/
def calcValidSizePre (size : Point) : Prop :=
  (size.x > 0 ∨ size.y > 0) ∧ size.x ≠ 0 ∧ size.y ≠ 0

instance (size : Point) : Decidable (calcValidSizePre size) := by
  unfold calcValidSizePre; infer_instance

/-- **C8.** For every point `p` satisfying `calcValidSize`'s asserted
precondition (`(p.x > 0 ∨ p.y > 0) ∧ p.x ≠ 0 ∧ p.y ≠ 0`), the result has
`x ≥ minItemWidth` and `y ≥ minItemHeight`, and `calcValidSize` is
idempotent: `calcValidSize (calcValidSize p) = calcValidSize p`. -/
theorem calcValidSize_min_and_idempotent (p : Point) (_h : calcValidSizePre p) :
    minItemWidth ≤ (calcValidSize p).x ∧ minItemHeight ≤ (calcValidSize p).y ∧
    calcValidSize (calcValidSize p) = calcValidSize p := by
  refine ⟨le_max_right _ _, le_max_right _ _, ?_⟩
  simp [calcValidSize, max_assoc]

/-- Witness for C8 at the concrete input `(3, -1)`. -/
theorem calcValidSize_min_and_idempotent_witness :
    calcValidSizePre ⟨3, -1⟩ ∧
      (minItemWidth ≤ (calcValidSize ⟨3, -1⟩).x ∧
       minItemHeight ≤ (calcValidSize ⟨3, -1⟩).y ∧
       calcValidSize (calcValidSize ⟨3, -1⟩) = calcValidSize ⟨3, -1⟩) :=
  ⟨by decide, calcValidSize_min_and_idempotent ⟨3, -1⟩ (by decide)⟩

/-! ## The grid arranger: `Items.arrange` (src/items.js lines 1403–1494)

The source reads two environment values that the modelled core receives
from the UI layer: the CSS margin of the first item (`itemMargin`, `0`
when `items` is null or empty) and the right-to-left flag `UI.rtl`; both
are parameters here.  The `dropIndex` field of the result is a genuine
JavaScript tri-state: `null` (early zero-count return without a drop
position), `false` (drop position given but never matched in the loop)
or an integer index. -/

/-- The possible values of the `dropIndex` field of an `Items.arrange`
result: the JavaScript values `null`, `false`, or an integer. -/
inductive DropIndex where
  | nullJS : DropIndex
  | falseJS : DropIndex
  | idx : ℕ → DropIndex
deriving DecidableEq, Repr

/-- Result of `Items.arrange`: `rects`, `dropIndex`, `columns`.  The early
zero-count return carries no `columns` field (`none`). -/
structure ArrangeResult where
  rects : List Rect
  dropIndex : DropIndex
  columns : Option ℕ
deriving DecidableEq, Repr

/-- `figure()` inside `Items.arrange` (src/items.js lines 1430–1439):
given the candidate column count, the row count, the validated tab size,
and the total height needed. -/
def figure (count : ℕ) (bounds : Rect) (padding : ℚ) (columns : ℕ) :
    ℕ × ℚ × ℚ × ℚ :=
  let rows : ℕ := (count + columns - 1) / columns
  let validSize := calcValidSize ⟨(bounds.width - padding * columns) / columns, -1⟩
  (rows, validSize.x, validSize.y, validSize.y * rows + padding * rows)

/-- The column-search loop of `Items.arrange` (src/items.js lines
1441–1446): `while (rows > 1 && totalHeight > bounds.height) { columns++ }`.
The loop exits once `columns ≥ count` (then `rows ≤ 1`), so `count` spare
iterations of fuel always suffice. -/
def arrangeColumns (count : ℕ) (bounds : Rect) (padding : ℚ) :
    ℕ → ℕ → ℕ
  | 0, columns => columns
  | fuel + 1, columns =>
    let (rows, _, _, totalHeight) := figure count bounds padding columns
    if 1 < rows ∧ bounds.height < totalHeight then
      arrangeColumns count bounds padding fuel (columns + 1)
    else columns

/-- One iteration of the cell-emitting loop of `Items.arrange`
(src/items.js lines 1470–1491), acting on the running state
`(rects, dropIndex, box, column)`. -/
def emitStep (bounds : Rect) (columns : ℕ) (padding itemMargin initialOffset : ℚ)
    (rtl : Bool) (dropRect : Option Rect)
    (st : List Rect × DropIndex × Rect × ℕ) (a : ℕ) :
    List Rect × DropIndex × Rect × ℕ :=
  let (rects, dropIndex, box, column) := st
  let dropIndex :=
    match dropRect with
    | some dr =>
      if (box.inset (-(itemMargin + 1)) (-(itemMargin + 1))).containsRect dr
      then DropIndex.idx a else dropIndex
    | none => dropIndex
  let rects := rects ++ [box]
  let box : Rect := { box with
    left := box.left + (if rtl then -1 else 1) * (box.width + padding) }
  let column := column + 1
  if column = columns then
    (rects, dropIndex,
      { box with left := bounds.left + initialOffset,
                 top := box.top + box.height + padding }, 0)
  else
    (rects, dropIndex, box, column)

/-- The whole cell-emitting loop of `Items.arrange` (src/items.js lines
1470–1491), starting from no rectangles, `dropIndex = false`, the initial
box and column `0`. -/
def emitLoop (bounds : Rect) (columns : ℕ)
    (padding itemMargin initialOffset : ℚ) (rtl : Bool)
    (dropRect : Option Rect) (count : ℕ) (box0 : Rect) :
    List Rect × DropIndex × Rect × ℕ :=
  (List.range count).foldl
    (emitStep bounds columns padding itemMargin initialOffset rtl dropRect)
    ([], DropIndex.falseJS, box0, 0)

/-- `Items.arrange` (src/items.js lines 1403–1494).  `count` is the
resolved item count (after `options.count || items.length` and `addTab`),
`presetColumns` is `options.columns` (`none` for absent or `0`, both of
which the source's falsy test turns into `1`), `itemMargin` the CSS margin
of the first item and `rtl` the `UI.rtl` flag.  The `widthAndColumns`
early-return variant is not modelled (no claim concerns it). -/
def arrange (count : ℕ) (bounds : Rect) (presetColumns : Option ℕ)
    (dropPos : Option Point) (itemMargin : ℚ) (rtl : Bool) : ArrangeResult :=
  if count = 0 then
    { rects := [],
      dropIndex := if dropPos.isSome then DropIndex.idx 0 else DropIndex.nullJS,
      columns := none }
  else
    let padding := itemMargin * 2
    let columns := arrangeColumns count bounds padding count (presetColumns.getD 1)
    let (rows, tabWidth, tabHeight, _) := figure count bounds padding columns
    let (tabWidth, tabHeight) :=
      if rows = 1 then
        let v := calcValidSize ⟨tabWidth, bounds.height - 2 * itemMargin⟩
        (v.x, v.y)
      else (tabWidth, tabHeight)
    let initialOffset : ℚ := if rtl then bounds.width - tabWidth - padding else 0
    let box : Rect := ⟨bounds.left + initialOffset, bounds.top, tabWidth, tabHeight⟩
    let dropRect : Option Rect := dropPos.map fun p => ⟨p.x, p.y, 1, 1⟩
    let res := emitLoop bounds columns padding itemMargin initialOffset rtl
      dropRect count box
    { rects := res.1, dropIndex := res.2.1, columns := some columns }

unseal Rat.add Rat.sub Rat.mul Rat.inv Rat.ofScientific in
/-- **C7.** `Items.arrange` with `count = 6`, `bounds = {0, 0, 600, 300}`
and no fixed column count yields `columns = 3`, so that
`ceil(6/columns) * columns ≥ 6`, and each of the six emitted rectangles
lies within the bounds with `width ≥ minItemWidth` and
`height ≥ minItemHeight`. -/
theorem arrange_six_in_600x300 :
    (arrange 6 ⟨0, 0, 600, 300⟩ none none 0 false).columns = some 3 ∧
    6 ≤ ((6 + 3 - 1) / 3) * 3 ∧
    (arrange 6 ⟨0, 0, 600, 300⟩ none none 0 false).rects.length = 6 ∧
    ∀ rect ∈ (arrange 6 ⟨0, 0, 600, 300⟩ none none 0 false).rects,
      rect.within ⟨0, 0, 600, 300⟩ = true ∧
      minItemWidth ≤ rect.width ∧ minItemHeight ≤ rect.height := by
  decide

/-! ### The drop-index computation of `Items.arrange` -/

/-- The hit test the emitting loop applies at each cell (src/items.js lines
1472–1478): the cell rectangle inflated by `itemMargin + 1` on each side
must strictly contain the 1×1 rectangle built at the drop position. -/
def activeHit (itemMargin : ℚ) (dropRect cell : Rect) : Bool :=
  (cell.inset (-(itemMargin + 1)) (-(itemMargin + 1))).containsRect dropRect

/-- Declarative description of the drop index actually computed by
`Items.arrange`: the greatest sequential cell index whose `activeHit` test
succeeds, and the JavaScript sentinel `false` when none does. -/
def specDropIndex (itemMargin : ℚ) (dropRect : Rect) (rects : List Rect) :
    DropIndex :=
  match ((List.range rects.length).filter
      (fun a => activeHit itemMargin dropRect (rects.getD a ⟨0, 0, 0, 0⟩))).getLast? with
  | some a => DropIndex.idx a
  | none => DropIndex.falseJS

theorem specDropIndex_append (m : ℚ) (dr r : Rect) (rs : List Rect) :
    specDropIndex m dr (rs ++ [r]) =
      if activeHit m dr r then DropIndex.idx rs.length
      else specDropIndex m dr rs := by
  unfold specDropIndex
  have hlen : (rs ++ [r]).length = rs.length + 1 := by simp
  rw [hlen, List.range_succ, List.filter_append,
    List.filter_congr (q := fun a => activeHit m dr (rs.getD a ⟨0, 0, 0, 0⟩))]
  · by_cases h : activeHit m dr r
    · have : (rs ++ [r]).getD rs.length ⟨0, 0, 0, 0⟩ = r := by
        simp [List.getD_eq_getElem?_getD]
      simp [this, h]
    · have : (rs ++ [r]).getD rs.length ⟨0, 0, 0, 0⟩ = r := by
        simp [List.getD_eq_getElem?_getD]
      simp [this, h]
  · intro a ha
    have ha' : a < rs.length := List.mem_range.mp ha
    have : (rs ++ [r]).getD a ⟨0, 0, 0, 0⟩ = rs.getD a ⟨0, 0, 0, 0⟩ := by
      simp [List.getD_eq_getElem?_getD, List.getElem?_append_left ha']
    rw [this]

/-- Invariant of the emitting loop: the running `dropIndex` is always the
`specDropIndex` of the rectangles emitted so far. -/
theorem emitLoop_dropIndex_invariant (bounds : Rect) (columns : ℕ)
    (padding itemMargin initialOffset : ℚ) (rtl : Bool) (dr : Rect)
    (box0 : Rect) (n : ℕ) :
    let st := emitLoop bounds columns padding itemMargin initialOffset rtl
      (some dr) n box0
    st.1.length = n ∧ st.2.1 = specDropIndex itemMargin dr st.1 := by
  induction n with
  | zero => simp [emitLoop, specDropIndex]
  | succ n ih =>
    obtain ⟨ihlen, ihdi⟩ := ih
    simp only [emitLoop, List.range_succ, List.foldl_append] at ihlen ihdi ⊢
    set st := (List.range n).foldl
      (emitStep bounds columns padding itemMargin initialOffset rtl (some dr))
      ([], DropIndex.falseJS, box0, 0) with hst
    obtain ⟨rects, di, box, col⟩ := st
    simp only at ihlen ihdi
    constructor
    · simp only [emitStep, List.foldl]
      split <;> simp [ihlen]
    · simp only [emitStep, List.foldl]
      split <;>
        simp [specDropIndex_append, activeHit, ihlen, ihdi]

unseal Rat.add Rat.sub Rat.mul Rat.inv Rat.ofScientific in
/-- **C6 (counterexample).** The claim "`dropIndex` equals the sequential
cell index whose cell rectangle inflated by the item margin contains the
drop point, and equals `null` when no inflated cell contains the point" is
false: with `count = 1`, `bounds = {0, 0, 600, 300}`, `itemMargin = 0` and
`dropPos = (-1/2, 150)`, no cell inflated by the item margin contains the
point, yet `arrange` returns `dropIndex = 0` (the source inflates by
`itemMargin + 1` and tests containment of a 1×1 rectangle). -/
theorem arrange_dropIndex_counterexample :
    let r := arrange 1 ⟨0, 0, 600, 300⟩ none (some ⟨-(1/2), 150⟩) 0 false
    r.dropIndex = DropIndex.idx 0 ∧ r.dropIndex ≠ DropIndex.nullJS ∧
      ∀ rect ∈ r.rects,
        (rect.inset (-0) (-0)).containsPoint ⟨-(1/2), 150⟩ = false := by
  decide

/-- **C6 (amended).** For every `Items.arrange` call with a drop position
supplied and `count ≥ 1`, the returned `dropIndex` equals the greatest
sequential cell index whose cell rectangle, inflated by the item margin
plus one, strictly contains the 1×1 rectangle at the drop position — and
equals the JavaScript sentinel `false` (not `null`) when no cell matches. -/
theorem arrange_dropIndex_lastHit (count : ℕ) (bounds : Rect)
    (presetColumns : Option ℕ) (itemMargin : ℚ) (rtl : Bool) (p : Point)
    (hcount : count ≠ 0) :
    (arrange count bounds presetColumns (some p) itemMargin rtl).dropIndex =
      specDropIndex itemMargin ⟨p.x, p.y, 1, 1⟩
        (arrange count bounds presetColumns (some p) itemMargin rtl).rects := by
  simp only [arrange, if_neg hcount, Option.map_some]
  exact (emitLoop_dropIndex_invariant _ _ _ _ _ _ _ _ _).2

/-- Witness for C6 (amended) at `count = 1`, `bounds = {0, 0, 600, 300}`,
`dropPos = (50, 50)`. -/
theorem arrange_dropIndex_lastHit_witness :
    (1 : ℕ) ≠ 0 ∧
      (arrange 1 ⟨0, 0, 600, 300⟩ none (some ⟨50, 50⟩) 0 false).dropIndex =
        specDropIndex 0 ⟨50, 50, 1, 1⟩
          (arrange 1 ⟨0, 0, 600, 300⟩ none (some ⟨50, 50⟩) 0 false).rects :=
  ⟨one_ne_zero, arrange_dropIndex_lastHit 1 ⟨0, 0, 600, 300⟩ none 0 false
    ⟨50, 50⟩ one_ne_zero⟩

/-! ## Registry bookkeeping: pause/resume coalescing and unregistration

Items are identified by their ids (`Items.register` asserts each item is
registered only once, so the `items` list carries no duplicates).  Arrange
options are opaque to this bookkeeping and modelled by a type parameter. -/

/-- One entry of `Items._arrangesPending`: the `{item, options}` record
built by `Items.pushArrange` (src/items.js lines 1646–1649). -/
structure ArrangeInfo (Opt : Type) where
  item : ℕ
  options : Opt
deriving DecidableEq, Repr

/-- `Items.pushArrange` (src/items.js lines 1639–1654): scan the pending
list for the first entry with the same item; replace it in place if found,
append otherwise. -/
def pushArrange {Opt : Type} :
    List (ArrangeInfo Opt) → ℕ → Opt → List (ArrangeInfo Opt)
  | [], item, options => [⟨item, options⟩]
  | e :: rest, item, options =>
    if e.item = item then ⟨item, options⟩ :: rest
    else e :: pushArrange rest item options

/-- `Items.resumeArrange` (src/items.js lines 1659–1666): the sequence of
`item.arrange(options)` calls it replays (first component, in list order)
and the pending list it leaves behind (second component, emptied). -/
def resumeArrange {Opt : Type} (pending : List (ArrangeInfo Opt)) :
    List (ArrangeInfo Opt) × List (ArrangeInfo Opt) :=
  (pending, [])

theorem pushArrange_keys_of_mem {Opt : Type} (st : List (ArrangeInfo Opt))
    (i : ℕ) (o : Opt) (h : i ∈ st.map ArrangeInfo.item) :
    (pushArrange st i o).map ArrangeInfo.item = st.map ArrangeInfo.item := by
  induction st with
  | nil => simp at h
  | cons e rest ih =>
    by_cases he : e.item = i
    · simp [pushArrange, he]
    · simp only [List.map_cons, List.mem_cons] at h
      rcases h with h | h
      · exact absurd h.symm he
      · simp [pushArrange, he, ih h]

theorem pushArrange_of_not_mem {Opt : Type} (st : List (ArrangeInfo Opt))
    (i : ℕ) (o : Opt) (h : i ∉ st.map ArrangeInfo.item) :
    pushArrange st i o = st ++ [⟨i, o⟩] := by
  induction st with
  | nil => simp [pushArrange]
  | cons e rest ih =>
    simp only [List.map_cons, List.mem_cons, not_or] at h
    have hne : ¬ e.item = i := fun he => h.1 he.symm
    simp [pushArrange, hne, ih h.2]

theorem pushArrange_find {Opt : Type} (st : List (ArrangeInfo Opt))
    (i : ℕ) (o : Opt) :
    (pushArrange st i o).find? (fun e => e.item == i) = some ⟨i, o⟩ := by
  induction st with
  | nil => simp [pushArrange, List.find?]
  | cons e rest ih =>
    by_cases he : e.item = i
    · simp [pushArrange, he, List.find?]
    · simpa [pushArrange, he, List.find?_cons, he] using ih

theorem pushArrange_nodup {Opt : Type} (st : List (ArrangeInfo Opt))
    (i : ℕ) (o : Opt) (h : (st.map ArrangeInfo.item).Nodup) :
    ((pushArrange st i o).map ArrangeInfo.item).Nodup := by
  by_cases hm : i ∈ st.map ArrangeInfo.item
  · rw [pushArrange_keys_of_mem st i o hm]; exact h
  · rw [pushArrange_of_not_mem st i o hm]
    simpa using List.Nodup.append h (by simp) (by simpa using hm)

/-- **C9.** While arranges are paused, `pushArrange` coalesces by item
identity: after any sequence of `pushArrange` calls starting from the
empty pending list, (i) the pending list holds at most one entry per item;
(ii) a `pushArrange` for an already-pending item leaves the sequence of
pending items — hence the entry's position — unchanged, and the entry for
that item now carries the new options (last-write-wins); (iii) a
`pushArrange` for a new item appends it, leaving all other entries
untouched; and (iv) `resumeArrange` replays exactly the pending entries in
insertion order once, and leaves the pending list empty. -/
theorem pushArrange_coalesces (Opt : Type) (reqs : List (ℕ × Opt)) :
    ((reqs.foldl (fun st r => pushArrange st r.1 r.2) []).map
        ArrangeInfo.item).Nodup ∧
    (∀ (i : ℕ) (o : Opt),
      i ∈ (reqs.foldl (fun st r => pushArrange st r.1 r.2) []).map
          ArrangeInfo.item →
      (pushArrange (reqs.foldl (fun st r => pushArrange st r.1 r.2) []) i
            o).map ArrangeInfo.item =
          (reqs.foldl (fun st r => pushArrange st r.1 r.2) []).map
            ArrangeInfo.item ∧
        (pushArrange (reqs.foldl (fun st r => pushArrange st r.1 r.2) []) i
            o).find? (fun e => e.item == i) = some ⟨i, o⟩) ∧
    (∀ (i : ℕ) (o : Opt),
      i ∉ (reqs.foldl (fun st r => pushArrange st r.1 r.2) []).map
          ArrangeInfo.item →
      pushArrange (reqs.foldl (fun st r => pushArrange st r.1 r.2) []) i o =
        (reqs.foldl (fun st r => pushArrange st r.1 r.2) []) ++ [⟨i, o⟩]) ∧
    resumeArrange (reqs.foldl (fun st r => pushArrange st r.1 r.2) []) =
      ((reqs.foldl (fun st r => pushArrange st r.1 r.2) []), []) := by
  have key : ∀ (l : List (ℕ × Opt)) (st : List (ArrangeInfo Opt)),
      (st.map ArrangeInfo.item).Nodup →
      ((l.foldl (fun st r => pushArrange st r.1 r.2) st).map
        ArrangeInfo.item).Nodup := by
    intro l
    induction l with
    | nil => intro st h; simpa using h
    | cons r rest ih =>
      intro st h
      exact ih (pushArrange st r.1 r.2) (pushArrange_nodup st r.1 r.2 h)
  refine ⟨key reqs [] (by simp), ?_, ?_, rfl⟩
  · intro i o hm
    exact ⟨pushArrange_keys_of_mem _ i o hm, pushArrange_find _ i o⟩
  · intro i o hm
    exact pushArrange_of_not_mem _ i o hm

/-- Witness for C9 with the request sequence
`[(1, 10), (2, 20), (1, 30)]` (item 1 pushed twice). -/
theorem pushArrange_coalesces_witness :
    let pending := [((1 : ℕ), (10 : ℕ)), (2, 20), (1, 30)].foldl
      (fun st r => pushArrange st r.1 r.2) []
    (pending.map ArrangeInfo.item).Nodup ∧
      ((pushArrange pending 1 99).map ArrangeInfo.item =
          pending.map ArrangeInfo.item ∧
        (pushArrange pending 1 99).find? (fun e => e.item == 1) =
          some ⟨1, 99⟩) ∧
      pushArrange pending 7 77 = pending ++ [⟨7, 77⟩] ∧
      resumeArrange pending = (pending, []) := by
  have h := pushArrange_coalesces ℕ [(1, 10), (2, 20), (1, 30)]
  exact ⟨h.1, h.2.1 1 99 (by decide), h.2.2.1 7 77 (by decide), h.2.2.2⟩

/-- The registry state touched by `Items.unregister`: the `items` list, the
`_activeItem` pointer and the `_arrangesPending` queue.  (The source also
drops the item from `_lastActiveList`, a most-recently-used list whose
implementation lives outside this repository and outside claim C10.) -/
structure ItemsState (Opt : Type) where
  items : List ℕ
  activeItem : Option ℕ
  arrangesPending : List (ArrangeInfo Opt)
deriving DecidableEq, Repr

/-- `Items.unregister` (src/items.js lines 1783–1796): splice the item out
of `items` (first occurrence, found via `indexOf`; no change if absent),
null the active pointer if it was this item, and filter the item's entries
out of `_arrangesPending`. -/
def unregister {Opt : Type} (st : ItemsState Opt) (item : ℕ) :
    ItemsState Opt :=
  { items := st.items.erase item,
    activeItem := if st.activeItem = some item then none else st.activeItem,
    arrangesPending := st.arrangesPending.filter (fun e => e.item ≠ item) }

/-- **C10.** `Items.unregister` leaves no dangling reference to the removed
item: given that registration is unique (`items` has no duplicates, as
`Items.register` asserts), after `unregister item` the item is absent from
the items list and from the pending-arrange queue, the active pointer is
nulled exactly when it pointed to the item, and all other items and
pending entries survive in order (both lists are sublists of the originals
containing every element not equal to the removed item). -/
theorem unregister_no_dangling {Opt : Type} (st : ItemsState Opt) (item : ℕ)
    (hnodup : st.items.Nodup) :
    let st' := unregister st item
    item ∉ st'.items ∧
    (∀ e ∈ st'.arrangesPending, e.item ≠ item) ∧
    (st.activeItem = some item → st'.activeItem = none) ∧
    (st.activeItem ≠ some item → st'.activeItem = st.activeItem) ∧
    st'.items = st.items.filter (fun j => j != item) ∧
    st'.arrangesPending.Sublist st.arrangesPending ∧
    (∀ e ∈ st.arrangesPending, e.item ≠ item → e ∈ st'.arrangesPending) := by
  intro st'
  refine ⟨?_, ?_, ?_, ?_, ?_, ?_, ?_⟩
  · exact fun h => (hnodup.mem_erase_iff.mp h).1 rfl
  · intro e he
    have := List.of_mem_filter he
    simpa using this
  · intro h; simp [st', unregister, h]
  · intro h; simp [st', unregister, h]
  · exact hnodup.erase_eq_filter item
  · exact List.filter_sublist _
  · intro e he hne
    exact List.mem_filter_of_mem he (by simpa using hne)

/-- Witness for C10: a three-item registry where item 2 is active and has a
pending arrange. -/
theorem unregister_no_dangling_witness :
    let st : ItemsState ℕ :=
      ⟨[1, 2, 3], some 2, [⟨1, 10⟩, ⟨2, 20⟩]⟩
    let st' := unregister st 2
    2 ∉ st'.items ∧
      (∀ e ∈ st'.arrangesPending, e.item ≠ 2) ∧
      (st.activeItem = some 2 → st'.activeItem = none) ∧
      (st.activeItem ≠ some 2 → st'.activeItem = st.activeItem) ∧
      st'.items = st.items.filter (fun j => j != 2) ∧
      st'.arrangesPending.Sublist st.arrangesPending ∧
      (∀ e ∈ st.arrangesPending, e.item ≠ 2 → e ∈ st'.arrangesPending) :=
  unregister_no_dangling ⟨[1, 2, 3], some 2, [⟨1, 10⟩, ⟨2, 20⟩]⟩ 2 (by decide)

/-! ## The push-away resolver: `Item.pushAway` (src/items.js lines 441–616)

One invocation runs four phases over the full item set: breadth-first
propagation, squish against the safe window bounds, unsquish, and the
commit of changed bounds.  Items are identified by id (`Items.register`
asserts unique registration).  The safe window bounds
(`Items.getSafeWindowBounds`, derived from the window size the UI layer
owns) are a parameter.  Generations are `ℕ∞` with `⊤` for the source's
`Infinity` ("as yet unaffected"). -/

/-- The persistent per-item data `pushAway` reads and writes: id, committed
bounds, and the optional user-chosen size consulted by unsquish. -/
structure Item0 where
  id : ℕ
  bounds : Rect
  userSize : Option Point
deriving DecidableEq, Repr

/-- An item together with its transient `pushAwayData` scratch record
(src/items.js lines 451–458): scratch `bounds`, `startBounds`,
`generation` and `pusher`. -/
structure PItem where
  id : ℕ
  bounds : Rect
  startBounds : Rect
  generation : ℕ∞
  pusher : Option ℕ
  userSize : Option Point
deriving DecidableEq

/-- State of the propagation loop: the item set and the `itemsToPush`
queue (by item id). -/
structure PropState where
  items : List PItem
  queue : List ℕ
deriving DecidableEq

/-- Look an item up by id (the source holds object references; ids play
that role here, with uniqueness guaranteed by `Items.register`). -/
def lookup (items : List PItem) (id : ℕ) : Option PItem :=
  items.find? (fun i => i.id == id)

/-- Replace the scratch bounds of the item with the given id. -/
def updateBounds (items : List PItem) (id : ℕ) (b : Rect) : List PItem :=
  items.map (fun i => if i.id = id then { i with bounds := b } else i)

/-- An item's bounds inflated by the push buffer on each side
(src/items.js lines 469–470 and 486–487). -/
def inflated (r : Rect) : Rect := r.inset (-pushBuffer) (-pushBuffer)

/-- The push offset computed inside `Item_pushAway_pushOne_pushEach`
(src/items.js lines 495–513): push along the axis of larger
center-to-center separation of the two buffer-inflated boxes (vertical on
a strict `<`, horizontal otherwise), in the direction away from the base's
center, by the amount making the inflated boxes edge-adjacent. -/
def pushOffset (base i : PItem) : Point :=
  if |(inflated i.bounds).center.x - (inflated base.bounds).center.x| <
      |(inflated i.bounds).center.y - (inflated base.bounds).center.y| then
    ⟨0, if (inflated i.bounds).center.y > (inflated base.bounds).center.y
        then (inflated base.bounds).bottom - (inflated i.bounds).top
        else (inflated base.bounds).top - (inflated i.bounds).bottom⟩
  else
    ⟨if (inflated i.bounds).center.x > (inflated base.bounds).center.x
        then (inflated base.bounds).right - (inflated i.bounds).left
        else (inflated base.bounds).left - (inflated i.bounds).right, 0⟩

/-- The body of `Item_pushAway_pushOne_pushEach` (src/items.js lines
474–524) for a single item against the popped `base`: returns the updated
item and whether it was pushed (and must be enqueued). -/
def pushEach (base : PItem) (i : PItem) : PItem × Bool :=
  if i.id = base.id then (i, false)
  else if i.generation ≤ base.generation then (i, false)
  else if (inflated i.bounds).intersects (inflated base.bounds) then
    ({ i with bounds := i.bounds.offsetBy (pushOffset base i),
              generation := base.generation + 1,
              pusher := some base.id }, true)
  else (i, false)

/-- `Item_pushAway_pushOne` (src/items.js lines 464–526): process every
item against the popped base and enqueue the pushed ones, in item-list
order. -/
def pushOne (st : PropState) (baseId : ℕ) : PropState :=
  match lookup st.items baseId with
  | none => st
  | some base =>
    let step := st.items.map (pushEach base)
    { items := step.map Prod.fst,
      queue := st.queue ++ (step.filter Prod.snd).map (fun p => p.fst.id) }

/-- One iteration of the `while (itemsToPush.length) pushOne(shift())`
loop (src/items.js lines 531–532). -/
def propStep (st : PropState) : PropState :=
  match st.queue with
  | [] => st
  | b :: rest => pushOne { st with queue := rest } b

/-- The propagation loop, run with explicit fuel; `propagate_terminates`
below shows `items.length ^ items.length` fuel always empties the queue,
so this is the loop's true final state. -/
def propagate : ℕ → PropState → PropState
  | 0, st => st
  | fuel + 1, st => if st.queue = [] then st else propagate fuel (propStep st)

/-- Setup and seeding (src/items.js lines 450–462): every item gets fresh
scratch data with generation `∞`, the seed gets generation `0` and is the
sole initial queue entry. -/
def initPush (items0 : List Item0) (seedId : ℕ) : PropState :=
  { items := items0.map (fun it =>
      { id := it.id, bounds := it.bounds, startBounds := it.bounds,
        generation := if it.id = seedId then 0 else ⊤,
        pusher := none, userSize := it.userSize }),
    queue := [seedId] }

/-- Division by a generation as the source performs it: a finite quantity
divided by `Infinity` is `0` in JavaScript. -/
def genDiv (q : ℚ) (g : ℕ∞) : ℚ :=
  WithTop.recTopCoe 0 (fun n : ℕ => q / n) g

/-- `Item_pushAway_squish_apply` (src/items.js lines 541–563): shrink and
shift one item, clamp the new size through `Items.calcValidSize`, and
recurse up the `pusher` chain with the accumulated position step.  The
pusher chain strictly decreases in generation, so `items.length + 1` fuel
(supplied by `squishOne`) never runs out on states the algorithm reaches. -/
def squishApply : ℕ → List PItem → ℕ → Point → Point → Point → List PItem
  | 0, st, _, _, _, _ => st
  | fuel + 1, st, id, posStep, posStep2, sizeStep =>
    match lookup st id with
    | none => st
    | some item =>
      if item.generation = 0 then st
      else
        let b := item.bounds
        let valid := calcValidSize ⟨b.width - sizeStep.x, b.height - sizeStep.y⟩
        let st' := updateBounds st id
          ⟨b.left + posStep.x, b.top + posStep.y, valid.x, valid.y⟩
        match item.pusher with
        | some p => squishApply fuel st' p
            ⟨posStep.x + posStep2.x, posStep.y + posStep2.y⟩ posStep2 sizeStep
        | none => st'

/-- The body of `Item_pushAway_squish` (src/items.js lines 536–594) for one
item: compute the per-axis overflow steps against the page bounds and, if
any is nonzero, apply them along the pusher chain. -/
def squishOne (pageBounds : Rect) (st : List PItem) (id : ℕ) : List PItem :=
  match lookup st id with
  | none => st
  | some item =>
    if item.generation = 0 then st
    else
      let bounds := item.bounds
      let sx :=
        if bounds.left < pageBounds.left then
          let p := pageBounds.left - bounds.left
          let s := genDiv p item.generation
          (p, -s, s)
        else if bounds.right > pageBounds.right then
          let p := pageBounds.right - bounds.right
          let s := genDiv (-p) item.generation
          (p + s, s, s)
        else ((0 : ℚ), (0 : ℚ), (0 : ℚ))
      let sy :=
        if bounds.top < pageBounds.top then
          let p := pageBounds.top - bounds.top
          let s := genDiv p item.generation
          (p, -s, s)
        else if bounds.bottom > pageBounds.bottom then
          let p := pageBounds.bottom - bounds.bottom
          let s := genDiv (-p) item.generation
          (p + s, s, s)
        else ((0 : ℚ), (0 : ℚ), (0 : ℚ))
      if sx.1 ≠ 0 ∨ sy.1 ≠ 0 ∨ sx.2.2 ≠ 0 ∨ sy.2.2 ≠ 0 then
        squishApply (st.length + 1) st id
          ⟨sx.1, sy.1⟩ ⟨sx.2.1, sy.2.1⟩ ⟨sx.2.2, sy.2.2⟩
      else st

/-- The squish phase: every item in list order (src/items.js line 536). -/
def squish (pageBounds : Rect) (items : List PItem) : List PItem :=
  (items.map PItem.id).foldl (squishOne pageBounds) items

/-- The preferred size unsquish grows an item back towards (src/items.js
lines 1527–1532): the remembered `userSize` if set, else the validated
minimum width with free height. -/
def preferredSize (userSize : Option Point) : Point :=
  match userSize with
  | some u => u
  | none => calcValidSize ⟨minItemWidth, -1⟩

/-- The grown, re-centered and page-clamped candidate rectangle the
unsquish body computes for one item (src/items.js lines 1524–1558). -/
def unsquishBounds (pageBounds : Rect) (item : PItem) : Rect :=
  let bounds := item.bounds
  let newSize := preferredSize item.userSize
  let newW := max bounds.width newSize.x
  let newH := max bounds.height newSize.y
  let newLeft := bounds.left - (newW - bounds.width) / 2
  let newTop := bounds.top - (newH - bounds.height) / 2
  let offX :=
    if newLeft < pageBounds.left then pageBounds.left - newLeft
    else if newLeft + newW > pageBounds.right then
      pageBounds.right - (newLeft + newW)
    else 0
  let offY :=
    if newTop < pageBounds.top then pageBounds.top - newTop
    else if newTop + newH > pageBounds.bottom then
      pageBounds.bottom - (newTop + newH)
    else 0
  ⟨newLeft + offX, newTop + offY, newW, newH⟩

/-- The body of `Items.unsquish` (src/items.js lines 1519–1577) for one
pair, with the pairs built by `pushAway` (every item, no `ignore`, and
every pair's `isAItem` true): apply the candidate rectangle only when it
changed and is not blocked by an intersection with any other pair's
current bounds. -/
def unsquishStep (pageBounds : Rect) (st : List PItem) (id : ℕ) : List PItem :=
  match lookup st id with
  | none => st
  | some item =>
    let nb := unsquishBounds pageBounds item
    if nb = item.bounds then st
    else if st.any (fun j => j.id != id && j.bounds.intersects nb) then st
    else updateBounds st id nb

/-- The unsquish phase of `pushAway` (src/items.js lines 596–606):
`Items.unsquish` over the pairs of every item with its scratch bounds. -/
def unsquish (pageBounds : Rect) (items : List PItem) : List PItem :=
  (items.map PItem.id).foldl (unsquishStep pageBounds) items

/-- The commit phase (src/items.js lines 609–615): every item whose final
scratch bounds differ from its `startBounds` gets them applied through
`Item.setBounds`, which validates the size through `Items.calcValidSize`
(src/items.js lines 1044–1050). -/
def commitItem (i : PItem) : Item0 :=
  if i.bounds = i.startBounds then ⟨i.id, i.startBounds, i.userSize⟩
  else
    let valid := calcValidSize ⟨i.bounds.width, i.bounds.height⟩
    ⟨i.id, ⟨i.bounds.left, i.bounds.top, valid.x, valid.y⟩, i.userSize⟩

/-- `Item.pushAway` (src/items.js lines 441–616), complete: no-op below
two items, then propagate, squish, unsquish, commit. -/
def pushAwayRun (pageBounds : Rect) (items0 : List Item0) (seedId : ℕ) :
    List Item0 :=
  if items0.length < 2 then items0
  else
    let st := propagate (items0.length ^ items0.length) (initPush items0 seedId)
    (unsquish pageBounds (squish pageBounds st.items)).map commitItem

/-! ### Boolean/propositional bridges for the geometry tests -/

theorem intersects_iff (r s : Rect) :
    r.intersects s = true ↔
      r.left < s.right ∧ s.left < r.right ∧ r.top < s.bottom ∧ s.top < r.bottom := by
  simp [Rect.intersects, and_assoc]

theorem within_iff (r page : Rect) :
    r.within page = true ↔
      page.left ≤ r.left ∧ r.right ≤ page.right ∧
      page.top ≤ r.top ∧ r.bottom ≤ page.bottom := by
  simp [Rect.within, and_assoc]

unseal Rat.add Rat.sub Rat.mul Rat.inv Rat.ofScientific in
/-- **C2 (counterexample).** After a complete `pushAway` pass two items'
committed bounds can intersect even though the safe window bounds
(0,0)–(1000,1000) hold all three items at minimum size with room to spare:
seeding at item 1, items 2 and 3 are both pushed right by item 1 in the
same propagation step (both reaching generation 1), land overlapping each
other, and neither ever re-examines the other because their generations
are equal. -/
theorem pushAway_overlap_counterexample :
    let page : Rect := ⟨0, 0, 1000, 1000⟩
    let s0 : List Item0 := [⟨1, ⟨0, 0, 300, 300⟩, none⟩,
      ⟨2, ⟨290, 0, 200, 200⟩, none⟩, ⟨3, ⟨295, 50, 200, 200⟩, none⟩]
    let r := pushAwayRun page s0 1
    (3 * (minItemWidth + defaultGutter) + defaultGutter ≤ page.width ∧
      minItemHeight + 2 * defaultGutter ≤ page.height) ∧
    ∃ i ∈ r, ∃ j ∈ r, i.id ≠ j.id ∧ i.bounds.intersects j.bounds = true := by
  decide

unseal Rat.add Rat.sub Rat.mul Rat.inv Rat.ofScientific in
/-- **C4 (counterexample).** `pushAway` is not idempotent on completed
passes: from items 1 at (0,0,300,300) and 2 at (290,0,130,300) with safe
window bounds (0,0)–(400,1000), the first pass leaves item 2 squish-clamped
at (314,0,125,300) — sticking out past the right page edge because the
minimum-size clamp undid part of the shrink and unsquish was blocked by
item 1 — and a second pass with no intervening movement moves item 2 again
(to (275,0,125,300)). -/
theorem pushAway_not_idempotent_counterexample :
    let page : Rect := ⟨0, 0, 400, 1000⟩
    let s0 : List Item0 := [⟨1, ⟨0, 0, 300, 300⟩, none⟩,
      ⟨2, ⟨290, 0, 130, 300⟩, none⟩]
    pushAwayRun page (pushAwayRun page s0 1) 1 ≠ pushAwayRun page s0 1 := by
  decide

theorem bool_eq_false {b : Bool} (h : ¬ b = true) : b = false := by
  cases b
  · rfl
  · exact absurd rfl h

/-- When the guards pass, `pushEach` moves the item by `pushOffset`, bumps
its generation and records the pusher. -/
theorem pushEach_push (base i : PItem)
    (hid : i.id ≠ base.id) (hgen : ¬ i.generation ≤ base.generation)
    (hint : (inflated i.bounds).intersects (inflated base.bounds) = true) :
    pushEach base i =
      ({ i with
          bounds := i.bounds.offsetBy (pushOffset base i)
          generation := base.generation + 1
          pusher := some base.id }, true) := by
  rw [pushEach, if_neg hid, if_neg hgen, hint]
  simp

theorem intersects_comm (r s : Rect) : r.intersects s = s.intersects r := by
  rw [Bool.eq_iff_iff, intersects_iff, intersects_iff]
  constructor
  · rintro ⟨h1, h2, h3, h4⟩
    exact ⟨h2, h1, h4, h3⟩
  · rintro ⟨h1, h2, h3, h4⟩
    exact ⟨h2, h1, h4, h3⟩

/-- Disjointness of the buffer-inflated boxes implies disjointness of the
boxes themselves (the buffer is nonnegative). -/
theorem intersects_of_inflated_false (x y : Rect)
    (h : (inflated x).intersects (inflated y) = false) :
    x.intersects y = false := by
  have hb : (0 : ℚ) ≤ pushBuffer := by norm_num [pushBuffer, defaultGutter]
  apply bool_eq_false
  rw [intersects_iff]
  rintro ⟨h1, h2, h3, h4⟩
  rw [Rect.right] at h1 h2
  rw [Rect.bottom] at h3 h4
  have h' : ¬ ((inflated x).intersects (inflated y) = true) := by simp [h]
  rw [intersects_iff] at h'
  simp only [inflated, Rect.inset, Rect.right, Rect.bottom] at h'
  push_neg at h'
  exact absurd (h' (by linarith) (by linarith) (by linarith)) (by push_neg; linarith)

/-- Whatever branch the push offset takes, the pushed item's inflated box
no longer strictly intersects the base's inflated box. -/
theorem pushEach_disjoint (base i : PItem)
    (hid : i.id ≠ base.id) (hgen : ¬ i.generation ≤ base.generation)
    (hint : (inflated i.bounds).intersects (inflated base.bounds) = true) :
    (inflated (pushEach base i).1.bounds).intersects (inflated base.bounds) =
      false := by
  rw [pushEach_push base i hid hgen hint]
  by_cases habs : |(inflated i.bounds).center.x - (inflated base.bounds).center.x| <
      |(inflated i.bounds).center.y - (inflated base.bounds).center.y|
  · rw [show pushOffset base i =
        ⟨0, if (inflated i.bounds).center.y > (inflated base.bounds).center.y
            then (inflated base.bounds).bottom - (inflated i.bounds).top
            else (inflated base.bounds).top - (inflated i.bounds).bottom⟩ from
      by rw [pushOffset, if_pos habs]]
    by_cases hdir : (inflated i.bounds).center.y > (inflated base.bounds).center.y
    · rw [if_pos hdir]
      apply bool_eq_false
      rw [intersects_iff]
      rintro ⟨-, -, hbad, -⟩
      simp only [inflated, Rect.inset, Rect.offsetBy, Rect.bottom] at hbad
      linarith
    · rw [if_neg hdir]
      apply bool_eq_false
      rw [intersects_iff]
      rintro ⟨-, -, -, hbad⟩
      simp only [inflated, Rect.inset, Rect.offsetBy, Rect.bottom] at hbad
      linarith
  · rw [show pushOffset base i =
        ⟨if (inflated i.bounds).center.x > (inflated base.bounds).center.x
          then (inflated base.bounds).right - (inflated i.bounds).left
          else (inflated base.bounds).left - (inflated i.bounds).right, 0⟩ from
      by rw [pushOffset, if_neg habs]]
    by_cases hdir : (inflated i.bounds).center.x > (inflated base.bounds).center.x
    · rw [if_pos hdir]
      apply bool_eq_false
      rw [intersects_iff]
      rintro ⟨hbad, -, -, -⟩
      simp only [inflated, Rect.inset, Rect.offsetBy, Rect.right] at hbad
      linarith
    · rw [if_neg hdir]
      apply bool_eq_false
      rw [intersects_iff]
      rintro ⟨-, hbad, -, -⟩
      simp only [inflated, Rect.inset, Rect.offsetBy, Rect.right] at hbad
      linarith

/-- **C5.** When the popped base (generation `n`) pushes an overlapping
item whose buffer-inflated box has different center separations from the
base's on the two axes, the applied offset is along exactly the axis of
larger separation, directed away from the base's center, by exactly the
amount that makes the two inflated boxes edge-adjacent (so they no longer
strictly intersect); the pushed item gets generation `n + 1` and the base
recorded as its pusher. -/
theorem pushEach_offset_characterization (base i : PItem)
    (hid : i.id ≠ base.id) (hgen : ¬ i.generation ≤ base.generation)
    (hint : (inflated i.bounds).intersects (inflated base.bounds) = true) :
    (pushEach base i).2 = true ∧
    (pushEach base i).1.generation = base.generation + 1 ∧
    (pushEach base i).1.pusher = some base.id ∧
    (|(inflated i.bounds).center.x - (inflated base.bounds).center.x| >
        |(inflated i.bounds).center.y - (inflated base.bounds).center.y| →
      (pushEach base i).1.bounds.top = i.bounds.top ∧
      (pushEach base i).1.bounds.width = i.bounds.width ∧
      (pushEach base i).1.bounds.height = i.bounds.height ∧
      ((inflated i.bounds).center.x > (inflated base.bounds).center.x →
        (inflated (pushEach base i).1.bounds).left =
            (inflated base.bounds).right ∧
          i.bounds.left < (pushEach base i).1.bounds.left) ∧
      ((inflated i.bounds).center.x ≤ (inflated base.bounds).center.x →
        (inflated (pushEach base i).1.bounds).right =
            (inflated base.bounds).left ∧
          (pushEach base i).1.bounds.left < i.bounds.left) ∧
      (inflated (pushEach base i).1.bounds).intersects
          (inflated base.bounds) = false) ∧
    (|(inflated i.bounds).center.y - (inflated base.bounds).center.y| >
        |(inflated i.bounds).center.x - (inflated base.bounds).center.x| →
      (pushEach base i).1.bounds.left = i.bounds.left ∧
      (pushEach base i).1.bounds.width = i.bounds.width ∧
      (pushEach base i).1.bounds.height = i.bounds.height ∧
      ((inflated i.bounds).center.y > (inflated base.bounds).center.y →
        (inflated (pushEach base i).1.bounds).top =
            (inflated base.bounds).bottom ∧
          i.bounds.top < (pushEach base i).1.bounds.top) ∧
      ((inflated i.bounds).center.y ≤ (inflated base.bounds).center.y →
        (inflated (pushEach base i).1.bounds).bottom =
            (inflated base.bounds).top ∧
          (pushEach base i).1.bounds.top < i.bounds.top) ∧
      (inflated (pushEach base i).1.bounds).intersects
          (inflated base.bounds) = false) := by
  have hii := (intersects_iff _ _).mp hint
  rw [pushEach_push base i hid hgen hint]
  refine ⟨rfl, rfl, rfl, ?_, ?_⟩
  · intro hax
    have hoff : pushOffset base i =
        ⟨if (inflated i.bounds).center.x > (inflated base.bounds).center.x
          then (inflated base.bounds).right - (inflated i.bounds).left
          else (inflated base.bounds).left - (inflated i.bounds).right, 0⟩ := by
      rw [pushOffset, if_neg (not_lt.mpr (le_of_lt hax))]
    rw [hoff]
    by_cases hdir : (inflated i.bounds).center.x > (inflated base.bounds).center.x
    · rw [if_pos hdir]
      have h1 : (inflated i.bounds).left < (inflated base.bounds).right := hii.1
      refine ⟨by simp [Rect.offsetBy], rfl, rfl, ?_, ?_, ?_⟩
      · intro _
        constructor
        · simp only [inflated, Rect.inset, Rect.offsetBy, Rect.right]
          simp only [inflated, Rect.inset, Rect.right] at h1 ⊢
          ring
        · simp only [Rect.offsetBy]
          simp only [inflated, Rect.inset, Rect.right] at h1
          linarith
      · intro hle
        exact absurd hdir (not_lt.mpr hle)
      · apply bool_eq_false
        rw [intersects_iff]
        rintro ⟨hbad, -, -, -⟩
        simp only [inflated, Rect.inset, Rect.offsetBy, Rect.right] at hbad
        linarith
    · rw [if_neg hdir]
      have h1 : (inflated base.bounds).left < (inflated i.bounds).right := hii.2.1
      refine ⟨by simp [Rect.offsetBy], rfl, rfl, ?_, ?_, ?_⟩
      · intro hgt
        exact absurd hgt hdir
      · intro _
        constructor
        · simp only [inflated, Rect.inset, Rect.offsetBy, Rect.right]
          ring
        · simp only [Rect.offsetBy]
          simp only [inflated, Rect.inset, Rect.right] at h1
          linarith
      · apply bool_eq_false
        rw [intersects_iff]
        rintro ⟨-, hbad, -, -⟩
        simp only [inflated, Rect.inset, Rect.offsetBy, Rect.right] at hbad
        linarith
  · intro hay
    have hoff : pushOffset base i =
        ⟨0, if (inflated i.bounds).center.y > (inflated base.bounds).center.y
            then (inflated base.bounds).bottom - (inflated i.bounds).top
            else (inflated base.bounds).top - (inflated i.bounds).bottom⟩ := by
      rw [pushOffset, if_pos hay]
    rw [hoff]
    by_cases hdir : (inflated i.bounds).center.y > (inflated base.bounds).center.y
    · rw [if_pos hdir]
      have h1 : (inflated i.bounds).top < (inflated base.bounds).bottom := hii.2.2.1
      refine ⟨by simp [Rect.offsetBy], rfl, rfl, ?_, ?_, ?_⟩
      · intro _
        constructor
        · simp only [inflated, Rect.inset, Rect.offsetBy, Rect.bottom]
          ring
        · simp only [Rect.offsetBy]
          simp only [inflated, Rect.inset, Rect.bottom] at h1
          linarith
      · intro hle
        exact absurd hdir (not_lt.mpr hle)
      · apply bool_eq_false
        rw [intersects_iff]
        rintro ⟨-, -, hbad, -⟩
        simp only [inflated, Rect.inset, Rect.offsetBy, Rect.bottom] at hbad
        linarith
    · rw [if_neg hdir]
      have h1 : (inflated base.bounds).top < (inflated i.bounds).bottom := hii.2.2.2
      refine ⟨by simp [Rect.offsetBy], rfl, rfl, ?_, ?_, ?_⟩
      · intro hgt
        exact absurd hgt hdir
      · intro _
        constructor
        · simp only [inflated, Rect.inset, Rect.offsetBy, Rect.bottom]
          ring
        · simp only [Rect.offsetBy]
          simp only [inflated, Rect.inset, Rect.bottom] at h1
          linarith
      · apply bool_eq_false
        rw [intersects_iff]
        rintro ⟨-, -, -, hbad⟩
        simp only [inflated, Rect.inset, Rect.offsetBy, Rect.bottom] at hbad
        linarith

unseal Rat.add Rat.sub Rat.mul Rat.inv Rat.ofScientific in
/-- Witness for C5: a generation-0 base at (0,0,100,100) pushing an
overlapping unaffected item at (90,0,100,100) strictly to the right. -/
theorem pushEach_offset_characterization_witness :
    let base : PItem := ⟨1, ⟨0, 0, 100, 100⟩, ⟨0, 0, 100, 100⟩, 0, none, none⟩
    let i : PItem := ⟨2, ⟨90, 0, 100, 100⟩, ⟨90, 0, 100, 100⟩, ⊤, none, none⟩
    (pushEach base i).2 = true ∧
    (pushEach base i).1.generation = 0 + 1 ∧
    (pushEach base i).1.pusher = some 1 ∧
    ((inflated (pushEach base i).1.bounds).left = (inflated base.bounds).right ∧
      i.bounds.left < (pushEach base i).1.bounds.left) ∧
    (inflated (pushEach base i).1.bounds).intersects (inflated base.bounds) =
      false := by
  intro base i
  have T := pushEach_offset_characterization base i (by decide) (by decide)
    (by decide)
  have hax : |(inflated i.bounds).center.x - (inflated base.bounds).center.x| >
      |(inflated i.bounds).center.y - (inflated base.bounds).center.y| := by
    decide
  have hdir : (inflated i.bounds).center.x > (inflated base.bounds).center.x := by
    decide
  obtain ⟨h1, h2, h3, hx, -⟩ := T
  obtain ⟨-, -, -, hgt, -, hni⟩ := hx hax
  exact ⟨h1, h2, h3, hgt hdir, hni⟩

/-! ### C3: minimum size is never violated by a push-away pass -/

/-- Every item of a scratch list satisfies the global minimum size. -/
def MinSized (items : List PItem) : Prop :=
  ∀ i ∈ items, minItemWidth ≤ i.bounds.width ∧ minItemHeight ≤ i.bounds.height

theorem calcValidSize_x (p : Point) : minItemWidth ≤ (calcValidSize p).x :=
  le_max_right _ _

theorem calcValidSize_y (p : Point) : minItemHeight ≤ (calcValidSize p).y :=
  le_max_right _ _

theorem pushEach_size (base i : PItem) :
    (pushEach base i).1.bounds.width = i.bounds.width ∧
    (pushEach base i).1.bounds.height = i.bounds.height := by
  rw [pushEach]
  split
  · exact ⟨rfl, rfl⟩
  · split
    · exact ⟨rfl, rfl⟩
    · split
      · exact ⟨rfl, rfl⟩
      · exact ⟨rfl, rfl⟩

theorem pushOne_minSized (st : PropState) (baseId : ℕ)
    (h : MinSized st.items) : MinSized (pushOne st baseId).items := by
  rw [pushOne]
  cases hl : lookup st.items baseId with
  | none => exact h
  | some base =>
    intro i hi
    simp only [List.map_map, List.mem_map] at hi
    obtain ⟨j, hj, rfl⟩ := hi
    have := h j hj
    have hs := pushEach_size base j
    simp only [Function.comp] at hs ⊢
    rw [hs.1, hs.2]
    exact this

theorem propStep_minSized (st : PropState) (h : MinSized st.items) :
    MinSized (propStep st).items := by
  rw [propStep]
  cases hq : st.queue with
  | nil => exact h
  | cons b rest => exact pushOne_minSized _ b h

theorem propagate_minSized (fuel : ℕ) (st : PropState)
    (h : MinSized st.items) : MinSized (propagate fuel st).items := by
  induction fuel generalizing st with
  | zero => exact h
  | succ n ih =>
    rw [propagate]
    split
    · exact h
    · exact ih _ (propStep_minSized st h)

theorem updateBounds_minSized (st : List PItem) (id : ℕ) (b : Rect)
    (hb : minItemWidth ≤ b.width ∧ minItemHeight ≤ b.height)
    (h : MinSized st) : MinSized (updateBounds st id b) := by
  intro i hi
  simp only [updateBounds, List.mem_map] at hi
  obtain ⟨j, hj, rfl⟩ := hi
  split
  · exact hb
  · exact h j hj

theorem squishApply_minSized (fuel : ℕ) (st : List PItem) (id : ℕ)
    (posStep posStep2 sizeStep : Point) (h : MinSized st) :
    MinSized (squishApply fuel st id posStep posStep2 sizeStep) := by
  induction fuel generalizing st id posStep with
  | zero => exact h
  | succ n ih =>
    rw [squishApply]
    cases hl : lookup st id with
    | none => exact h
    | some item =>
      simp only
      split
      · exact h
      · have hupd : MinSized (updateBounds st id
            ⟨item.bounds.left + posStep.x, item.bounds.top + posStep.y,
              (calcValidSize ⟨item.bounds.width - sizeStep.x,
                item.bounds.height - sizeStep.y⟩).x,
              (calcValidSize ⟨item.bounds.width - sizeStep.x,
                item.bounds.height - sizeStep.y⟩).y⟩) :=
          updateBounds_minSized st id _
            ⟨calcValidSize_x _, calcValidSize_y _⟩ h
        cases item.pusher with
        | some p => exact ih _ _ _ hupd
        | none => exact hupd

theorem squishOne_minSized (pageBounds : Rect) (st : List PItem) (id : ℕ)
    (h : MinSized st) : MinSized (squishOne pageBounds st id) := by
  rw [squishOne]
  cases hl : lookup st id with
  | none => exact h
  | some item =>
    simp only
    repeat' split
    all_goals
      first
        | exact h
        | exact squishApply_minSized _ _ _ _ _ _ h

theorem foldl_minSized {α : Type} (f : List PItem → α → List PItem)
    (hf : ∀ st a, MinSized st → MinSized (f st a)) (l : List α)
    (st : List PItem) (h : MinSized st) : MinSized (l.foldl f st) := by
  induction l generalizing st with
  | nil => exact h
  | cons a rest ih => exact ih _ (hf st a h)

theorem squish_minSized (pageBounds : Rect) (items : List PItem)
    (h : MinSized items) : MinSized (squish pageBounds items) :=
  foldl_minSized _ (fun st a => squishOne_minSized pageBounds st a) _ _ h

theorem unsquishStep_minSized (pageBounds : Rect) (st : List PItem) (id : ℕ)
    (h : MinSized st) : MinSized (unsquishStep pageBounds st id) := by
  rw [unsquishStep]
  cases hl : lookup st id with
  | none => exact h
  | some item =>
    have hmem : item ∈ st := List.mem_of_find?_eq_some hl
    have hitem := h item hmem
    have hsize : minItemWidth ≤ (unsquishBounds pageBounds item).width ∧
        minItemHeight ≤ (unsquishBounds pageBounds item).height :=
      ⟨le_trans hitem.1 (le_max_left _ _),
        le_trans hitem.2 (le_max_left _ _)⟩
    simp only
    split
    · exact h
    · split
      · exact h
      · exact updateBounds_minSized st id _ hsize h

theorem unsquish_minSized (pageBounds : Rect) (items : List PItem)
    (h : MinSized items) : MinSized (unsquish pageBounds items) :=
  foldl_minSized _ (fun st a => unsquishStep_minSized pageBounds st a) _ _ h

/-- **C3.** For items whose bounds enter the pass at the global minimum
size or above (the system invariant every prior `setBounds` maintains),
every item still satisfies `width ≥ minItemWidth` and
`height ≥ minItemHeight` after a complete `pushAway` pass: propagation
only translates, every shrink step of squish goes through
`Items.calcValidSize`, unsquish never shrinks, and the commit validates
through `Items.calcValidSize` again. -/
theorem pushAway_min_size (pageBounds : Rect) (items0 : List Item0)
    (seedId : ℕ)
    (hmin : ∀ it ∈ items0, minItemWidth ≤ it.bounds.width ∧
      minItemHeight ≤ it.bounds.height) :
    ∀ it ∈ pushAwayRun pageBounds items0 seedId,
      minItemWidth ≤ it.bounds.width ∧ minItemHeight ≤ it.bounds.height := by
  rw [pushAwayRun]
  split
  · exact hmin
  · intro it hit
    simp only [List.mem_map] at hit
    obtain ⟨j, hj, rfl⟩ := hit
    have hinit : MinSized (initPush items0 seedId).items := by
      intro i hi
      simp only [initPush, List.mem_map] at hi
      obtain ⟨k, hk, rfl⟩ := hi
      exact hmin k hk
    have hj' := unsquish_minSized pageBounds _
      (squish_minSized pageBounds _
        (propagate_minSized _ _ hinit)) j hj
    rw [commitItem]
    split
    · next heq => rw [← heq]; exact hj'
    · exact ⟨calcValidSize_x _, calcValidSize_y _⟩

/-- Witness for C3: the two-item configuration of the idempotence
counterexample (both items at or above minimum size). -/
theorem pushAway_min_size_witness :
    (∀ it ∈ [(⟨1, ⟨0, 0, 300, 300⟩, none⟩ : Item0),
        ⟨2, ⟨290, 0, 130, 300⟩, none⟩],
      minItemWidth ≤ it.bounds.width ∧ minItemHeight ≤ it.bounds.height) ∧
    ∀ it ∈ pushAwayRun ⟨0, 0, 400, 1000⟩
        [⟨1, ⟨0, 0, 300, 300⟩, none⟩, ⟨2, ⟨290, 0, 130, 300⟩, none⟩] 1,
      minItemWidth ≤ it.bounds.width ∧ minItemHeight ≤ it.bounds.height := by
  constructor
  · intro it hit
    simp only [List.mem_cons, List.mem_singleton] at hit
    rcases hit with rfl | rfl | h
    · constructor <;> norm_num [minItemWidth, minItemHeight]
    · constructor <;> norm_num [minItemWidth, minItemHeight]
    · cases h
  · exact pushAway_min_size ⟨0, 0, 400, 1000⟩ _ 1 (by
      intro it hit
      simp only [List.mem_cons, List.mem_singleton] at hit
      rcases hit with rfl | rfl | h
      · constructor <;> norm_num [minItemWidth, minItemHeight]
      · constructor <;> norm_num [minItemWidth, minItemHeight]
      · cases h)

/-! ### C4 (amended): push-away is a no-op on resolved configurations -/

theorem foldl_fixed {α β : Type} (f : β → α → β) (st : β) (l : List α)
    (h : ∀ a ∈ l, f st a = st) : l.foldl f st = st := by
  induction l with
  | nil => rfl
  | cons a rest ih =>
    rw [List.foldl_cons, h a (List.mem_cons_self a rest)]
    exact ih (fun a ha => h a (List.mem_cons_of_mem _ ha))

theorem foldl_pres {α β : Type} (P : β → Prop) (f : β → α → β)
    (hf : ∀ st a, P st → P (f st a)) (l : List α) (st : β) (h : P st) :
    P (l.foldl f st) := by
  induction l generalizing st with
  | nil => exact h
  | cons a rest ih => exact ih _ (hf st a h)

theorem propagate_of_queue_nil (fuel : ℕ) (st : PropState)
    (h : st.queue = []) : propagate fuel st = st := by
  cases fuel with
  | zero => rfl
  | succ n => rw [propagate, if_pos h]

theorem map_pushEach_fst (l : List PItem) (base : PItem)
    (h : ∀ i ∈ l, pushEach base i = (i, false)) :
    (l.map (pushEach base)).map Prod.fst = l := by
  induction l with
  | nil => rfl
  | cons a rest ih =>
    have ha := h a (List.mem_cons_self a rest)
    simp only [List.map_cons, ha]
    rw [ih (fun i hi => h i (List.mem_cons_of_mem _ hi))]

theorem filter_pushEach_snd (l : List PItem) (base : PItem)
    (h : ∀ i ∈ l, pushEach base i = (i, false)) :
    (l.map (pushEach base)).filter Prod.snd = [] := by
  induction l with
  | nil => rfl
  | cons a rest ih =>
    have ha := h a (List.mem_cons_self a rest)
    simp only [List.map_cons, ha, List.filter_cons]
    rw [ih (fun i hi => h i (List.mem_cons_of_mem _ hi))]
    simp

/-- A pop that pushes nothing leaves the state unchanged (apart from the
already-removed queue head). -/
theorem pushOne_noop (st : PropState) (baseId : ℕ)
    (h : ∀ base, lookup st.items baseId = some base →
      ∀ i ∈ st.items, pushEach base i = (i, false)) :
    pushOne st baseId = st := by
  rw [pushOne]
  cases hl : lookup st.items baseId with
  | none => rfl
  | some base =>
    have heach := h base hl
    cases st with
    | mk items queue =>
      simp only at heach ⊢
      rw [map_pushEach_fst items base heach, filter_pushEach_snd items base heach]
      simp

/-- If no item's inflated bounds intersect the seed's, the first pop
pushes nothing and the propagation loop ends immediately with all bounds
unchanged. -/
theorem propagate_noop (items0 : List Item0) (seedId : ℕ) (fuel : ℕ)
    (P1 : ∀ it ∈ items0, ∀ sd ∈ items0, sd.id = seedId → it.id ≠ seedId →
      (inflated it.bounds).intersects (inflated sd.bounds) = false) :
    propagate (fuel + 1) (initPush items0 seedId) =
      { items := (initPush items0 seedId).items, queue := [] } := by
  have hstep : propStep (initPush items0 seedId) =
      pushOne { items := (initPush items0 seedId).items, queue := [] } seedId :=
    rfl
  have hnoop : pushOne
      { items := (initPush items0 seedId).items, queue := [] } seedId =
      { items := (initPush items0 seedId).items, queue := [] } := by
    apply pushOne_noop
    intro base hl i hi
    have hbase_mem : base ∈ (initPush items0 seedId).items :=
      List.mem_of_find?_eq_some hl
    have hbase_id : base.id = seedId := by
      have := List.find?_some hl
      simpa using this
    obtain ⟨sd, hsd, hsdeq⟩ :=
      List.mem_map.mp (show base ∈ items0.map _ from hbase_mem)
    have hsdid : sd.id = seedId := by
      rw [← hbase_id, ← hsdeq]
    have hbgen : base.generation = 0 := by
      rw [← hsdeq]
      simp [hsdid]
    have hbbounds : base.bounds = sd.bounds := by rw [← hsdeq]
    obtain ⟨orig, horig, hie⟩ :=
      List.mem_map.mp (show i ∈ items0.map _ from hi)
    have hiid : i.id = orig.id := by rw [← hie]
    have hibounds : i.bounds = orig.bounds := by rw [← hie]
    by_cases hid : orig.id = seedId
    · rw [pushEach, if_pos (show i.id = base.id by rw [hiid, hid, hbase_id])]
    · have hig : i.generation = ⊤ := by
        rw [← hie]
        simp [hid]
      have hfalse : (inflated i.bounds).intersects (inflated base.bounds) =
          false := by
        rw [hibounds, hbbounds]
        exact P1 orig horig sd hsd hsdid hid
      rw [pushEach,
        if_neg (show ¬ i.id = base.id by rw [hiid, hbase_id]; exact hid),
        if_neg (show ¬ i.generation ≤ base.generation by
          rw [hig, hbgen]; simp),
        if_neg (by rw [hfalse]; exact Bool.false_ne_true)]
  rw [propagate, if_neg (show ¬ (initPush items0 seedId).queue = [] by
    simp [initPush])]
  rw [show propStep (initPush items0 seedId) =
    { items := (initPush items0 seedId).items, queue := [] } from
      hstep.trans hnoop]
  exact propagate_of_queue_nil fuel _ rfl

/-- An item fully within the page bounds is untouched by the squish body. -/
theorem squishOne_noop (pageBounds : Rect) (st : List PItem) (id : ℕ)
    (hw : ∀ i ∈ st, i.bounds.within pageBounds = true) :
    squishOne pageBounds st id = st := by
  rw [squishOne]
  cases hl : lookup st id with
  | none => rfl
  | some item =>
    have hmem : item ∈ st := List.mem_of_find?_eq_some hl
    have h := (within_iff _ _).mp (hw item hmem)
    simp only
    split
    · rfl
    · rw [if_neg (not_lt.mpr h.1), if_neg (not_lt.mpr h.2.1),
        if_neg (not_lt.mpr h.2.2.1), if_neg (not_lt.mpr h.2.2.2)]
      rw [if_neg (by simp)]

theorem squish_noop (pageBounds : Rect) (items : List PItem)
    (hw : ∀ i ∈ items, i.bounds.within pageBounds = true) :
    squish pageBounds items = items :=
  foldl_fixed _ _ _ (fun id _ => squishOne_noop pageBounds items id hw)

/-- An item within the page bounds and at or above its preferred size is
untouched by the unsquish body. -/
theorem unsquishStep_noop (pageBounds : Rect) (st : List PItem) (id : ℕ)
    (hw : ∀ i ∈ st, i.bounds.within pageBounds = true)
    (hp : ∀ i ∈ st, (preferredSize i.userSize).x ≤ i.bounds.width ∧
      (preferredSize i.userSize).y ≤ i.bounds.height) :
    unsquishStep pageBounds st id = st := by
  rw [unsquishStep]
  cases hl : lookup st id with
  | none => rfl
  | some item =>
    have hmem : item ∈ st := List.mem_of_find?_eq_some hl
    have hnb : unsquishBounds pageBounds item = item.bounds := by
      have h := (within_iff _ _).mp (hw item hmem)
      have h2 : item.bounds.left + item.bounds.width ≤ pageBounds.right := by
        have := h.2.1
        rwa [Rect.right] at this
      have h4 : item.bounds.top + item.bounds.height ≤ pageBounds.bottom := by
        have := h.2.2.2
        rwa [Rect.bottom] at this
      have hp' := hp item hmem
      simp only [unsquishBounds]
      rw [max_eq_left hp'.1, max_eq_left hp'.2]
      rw [sub_self, zero_div, sub_self, zero_div, sub_zero, sub_zero]
      rw [if_neg (not_lt.mpr h.1), if_neg (not_lt.mpr h2),
        if_neg (not_lt.mpr h.2.2.1), if_neg (not_lt.mpr h4)]
      rw [add_zero, add_zero]
    show (if unsquishBounds pageBounds item = item.bounds then st
      else if st.any
          (fun j => j.id != id &&
            j.bounds.intersects (unsquishBounds pageBounds item)) then st
      else updateBounds st id (unsquishBounds pageBounds item)) = st
    rw [if_pos hnb]

theorem unsquish_noop (pageBounds : Rect) (items : List PItem)
    (hw : ∀ i ∈ items, i.bounds.within pageBounds = true)
    (hp : ∀ i ∈ items, (preferredSize i.userSize).x ≤ i.bounds.width ∧
      (preferredSize i.userSize).y ≤ i.bounds.height) :
    unsquish pageBounds items = items :=
  foldl_fixed _ _ _ (fun id _ => unsquishStep_noop pageBounds items id hw hp)

/-- **C4 (amended).** Running `pushAway` again on a genuinely resolved
configuration — no item's buffer-inflated bounds intersect the seed
item's, every item lies within the safe window bounds, and every item is
at or above its preferred (user-chosen or minimum) size — produces no
further changes: the committed item list is exactly the input list.  (The
counterexample shows that "a pass has just completed" alone does not
guarantee such a configuration.) -/
theorem pushAway_noop_on_resolved (pageBounds : Rect) (items0 : List Item0)
    (seedId : ℕ)
    (P1 : ∀ it ∈ items0, ∀ sd ∈ items0, sd.id = seedId → it.id ≠ seedId →
      (inflated it.bounds).intersects (inflated sd.bounds) = false)
    (P2 : ∀ it ∈ items0, it.bounds.within pageBounds = true)
    (P3 : ∀ it ∈ items0, (preferredSize it.userSize).x ≤ it.bounds.width ∧
      (preferredSize it.userSize).y ≤ it.bounds.height) :
    pushAwayRun pageBounds items0 seedId = items0 := by
  rw [pushAwayRun]
  split
  · rfl
  · next hlen =>
    have hfuel : items0.length ^ items0.length =
        (items0.length ^ items0.length - 1) + 1 := by
      have : 0 < items0.length ^ items0.length :=
        Nat.pos_pow_of_pos _ (by omega)
      omega
    rw [hfuel, propagate_noop items0 seedId _ P1]
    have hw : ∀ i ∈ (initPush items0 seedId).items,
        i.bounds.within pageBounds = true := by
      intro i hi
      obtain ⟨orig, horig, rfl⟩ := List.mem_map.mp hi
      exact P2 orig horig
    have hp : ∀ i ∈ (initPush items0 seedId).items,
        (preferredSize i.userSize).x ≤ i.bounds.width ∧
        (preferredSize i.userSize).y ≤ i.bounds.height := by
      intro i hi
      obtain ⟨orig, horig, rfl⟩ := List.mem_map.mp hi
      exact P3 orig horig
    simp only
    rw [squish_noop pageBounds _ hw, unsquish_noop pageBounds _ hw hp]
    rw [initPush]
    rw [List.map_map]
    conv_rhs => rw [← List.map_id items0]
    apply List.map_congr_left
    intro orig _
    simp only [Function.comp, commitItem, eq_self_iff_true, if_true, id]

unseal Rat.add Rat.sub Rat.mul Rat.inv Rat.ofScientific in
/-- Witness for C4 (amended): two resolved items far apart on a large
page. -/
theorem pushAway_noop_on_resolved_witness :
    pushAwayRun ⟨0, 0, 1000, 1000⟩
      [⟨1, ⟨100, 100, 200, 200⟩, none⟩, ⟨2, ⟨500, 100, 200, 200⟩, none⟩] 1 =
      [⟨1, ⟨100, 100, 200, 200⟩, none⟩, ⟨2, ⟨500, 100, 200, 200⟩, none⟩] :=
  pushAway_noop_on_resolved ⟨0, 0, 1000, 1000⟩
    [⟨1, ⟨100, 100, 200, 200⟩, none⟩, ⟨2, ⟨500, 100, 200, 200⟩, none⟩] 1
    (by decide) (by decide) (by decide)

/-! ### C2 (amended): the two-item case ends pairwise disjoint -/

/-- No two items with distinct ids strictly overlap. -/
def Disjoint2 (st : List PItem) : Prop :=
  ∀ i ∈ st, ∀ j ∈ st, i.id ≠ j.id → i.bounds.intersects j.bounds = false

theorem updateBounds_mem {st : List PItem} {id : ℕ} {b : Rect} {i : PItem}
    (hi : i ∈ updateBounds st id b) :
    (∃ j ∈ st, j.id = id ∧ i = { j with bounds := b }) ∨
      (i ∈ st ∧ i.id ≠ id) := by
  simp only [updateBounds, List.mem_map] at hi
  obtain ⟨j, hj, rfl⟩ := hi
  by_cases h : j.id = id
  · exact Or.inl ⟨j, hj, h, by rw [if_pos h]⟩
  · rw [if_neg h]
    exact Or.inr ⟨hj, h⟩

/-- The unsquish body preserves pairwise disjointness: it only applies a
grown rectangle after checking it against every other item's current
bounds. -/
theorem unsquishStep_disjoint (pageBounds : Rect) (st : List PItem) (id : ℕ)
    (h : Disjoint2 st) : Disjoint2 (unsquishStep pageBounds st id) := by
  rw [unsquishStep]
  cases hl : lookup st id with
  | none => exact h
  | some item =>
    simp only
    split
    · exact h
    · split
      · exact h
      · next hblocked =>
        have hno : ∀ j ∈ st, j.id ≠ id →
            j.bounds.intersects (unsquishBounds pageBounds item) = false := by
          intro j hj hne
          by_contra hc
          apply hblocked
          rw [List.any_eq_true]
          refine ⟨j, hj, ?_⟩
          rw [Bool.and_eq_true, bne_iff_ne]
          exact ⟨hne, by
            cases hb : j.bounds.intersects (unsquishBounds pageBounds item)
            · exact absurd hb hc
            · rfl⟩
        intro i hi j hj hne
        rcases updateBounds_mem hi with ⟨i0, hi0, hi0id, rfl⟩ | ⟨hi0, hiid⟩
        · rcases updateBounds_mem hj with ⟨j0, hj0, hj0id, rfl⟩ | ⟨hj0, hjid⟩
          · exact absurd (hi0id.trans hj0id.symm) hne
          · rw [show ({ i0 with bounds := unsquishBounds pageBounds item } :
                PItem).bounds = unsquishBounds pageBounds item from rfl,
              intersects_comm]
            exact hno j hj0 hjid
        · rcases updateBounds_mem hj with ⟨j0, hj0, hj0id, rfl⟩ | ⟨hj0, hjid⟩
          · rw [show ({ j0 with bounds := unsquishBounds pageBounds item } :
                PItem).bounds = unsquishBounds pageBounds item from rfl]
            exact hno i hi0 hiid
          · exact h i hi0 j hj0 hne

theorem unsquish_disjoint (pageBounds : Rect) (items : List PItem)
    (h : Disjoint2 items) : Disjoint2 (unsquish pageBounds items) :=
  foldl_pres Disjoint2 _
    (fun st a => unsquishStep_disjoint pageBounds st a) _ _ h

theorem propagate_cons (fuel : ℕ) (items : List PItem) (b : ℕ)
    (rest : List ℕ) :
    propagate (fuel + 1) ⟨items, b :: rest⟩ =
      propagate fuel (pushOne ⟨items, rest⟩ b) := by
  rw [propagate, if_neg (by simp)]
  rfl

/-- With items at or above the global minimum size, the commit phase
applies each item's scratch bounds verbatim (the `setBounds` size
validation is the identity). -/
theorem commitItem_preserves (i : PItem)
    (h : minItemWidth ≤ i.bounds.width ∧ minItemHeight ≤ i.bounds.height) :
    (commitItem i).bounds = i.bounds ∧ (commitItem i).id = i.id := by
  rw [commitItem]
  split
  · next heq => exact ⟨heq.symm, rfl⟩
  · refine ⟨?_, rfl⟩
    show (⟨i.bounds.left, i.bounds.top,
      max i.bounds.width minItemWidth, max i.bounds.height minItemHeight⟩ :
        Rect) = i.bounds
    rw [max_eq_left h.1, max_eq_left h.2]

/-- Complete description of the propagation phase on a two-item set: the
queue empties, ids and list order are preserved, and the two items end
with disjoint buffer-inflated boxes (either they never strictly
intersected, or the non-seed item was pushed edge-adjacent). -/
theorem propagate_two (a b : Item0) (seedId : ℕ) (hab : a.id ≠ b.id)
    (hs : seedId = a.id ∨ seedId = b.id) :
    ∃ A B : PItem,
      propagate ([a, b].length ^ [a, b].length) (initPush [a, b] seedId) =
        { items := [A, B], queue := [] } ∧
      A.id = a.id ∧ B.id = b.id ∧
      (inflated A.bounds).intersects (inflated B.bounds) = false := by
  have hlen : [a, b].length ^ [a, b].length = 4 := rfl
  rw [hlen]
  have hba : ¬ b.id = a.id := fun h => hab h.symm
  have hbeqab : (a.id == b.id) = false := beq_eq_false_iff_ne.mpr hab
  have hbeqba : (b.id == a.id) = false := beq_eq_false_iff_ne.mpr hba
  rcases hs with rfl | rfl
  · -- the seed is `a`
    have hinit : initPush [a, b] a.id =
        ⟨[⟨a.id, a.bounds, a.bounds, 0, none, a.userSize⟩,
          ⟨b.id, b.bounds, b.bounds, ⊤, none, b.userSize⟩], [a.id]⟩ := by
      simp [initPush, hba]
    have hlook : lookup [⟨a.id, a.bounds, a.bounds, 0, none, a.userSize⟩,
        (⟨b.id, b.bounds, b.bounds, ⊤, none, b.userSize⟩ : PItem)] a.id =
        some ⟨a.id, a.bounds, a.bounds, 0, none, a.userSize⟩ := by
      simp [lookup, List.find?]
    have hAA : pushEach ⟨a.id, a.bounds, a.bounds, 0, none, a.userSize⟩
        ⟨a.id, a.bounds, a.bounds, 0, none, a.userSize⟩ =
        (⟨a.id, a.bounds, a.bounds, 0, none, a.userSize⟩, false) := by
      rw [pushEach, if_pos rfl]
    by_cases hI : (inflated b.bounds).intersects (inflated a.bounds) = true
    · have hAB : pushEach ⟨a.id, a.bounds, a.bounds, 0, none, a.userSize⟩
          ⟨b.id, b.bounds, b.bounds, ⊤, none, b.userSize⟩ =
          (⟨b.id, b.bounds.offsetBy (pushOffset
              ⟨a.id, a.bounds, a.bounds, 0, none, a.userSize⟩
              ⟨b.id, b.bounds, b.bounds, ⊤, none, b.userSize⟩),
            b.bounds, 1, some a.id, b.userSize⟩, true) :=
        pushEach_push _ _ hba (by simp) hI
      have hlook2 : lookup [⟨a.id, a.bounds, a.bounds, 0, none, a.userSize⟩,
          (⟨b.id, b.bounds.offsetBy (pushOffset
              ⟨a.id, a.bounds, a.bounds, 0, none, a.userSize⟩
              ⟨b.id, b.bounds, b.bounds, ⊤, none, b.userSize⟩),
            b.bounds, 1, some a.id, b.userSize⟩ : PItem)] b.id =
          some ⟨b.id, b.bounds.offsetBy (pushOffset
              ⟨a.id, a.bounds, a.bounds, 0, none, a.userSize⟩
              ⟨b.id, b.bounds, b.bounds, ⊤, none, b.userSize⟩),
            b.bounds, 1, some a.id, b.userSize⟩ := by
        simp [lookup, List.find?, hbeqab]
      have hBA : pushEach ⟨b.id, b.bounds.offsetBy (pushOffset
            ⟨a.id, a.bounds, a.bounds, 0, none, a.userSize⟩
            ⟨b.id, b.bounds, b.bounds, ⊤, none, b.userSize⟩),
          b.bounds, 1, some a.id, b.userSize⟩
          ⟨a.id, a.bounds, a.bounds, 0, none, a.userSize⟩ =
          (⟨a.id, a.bounds, a.bounds, 0, none, a.userSize⟩, false) := by
        rw [pushEach, if_neg hab, if_pos (by simp)]
      have hBB : pushEach ⟨b.id, b.bounds.offsetBy (pushOffset
            ⟨a.id, a.bounds, a.bounds, 0, none, a.userSize⟩
            ⟨b.id, b.bounds, b.bounds, ⊤, none, b.userSize⟩),
          b.bounds, 1, some a.id, b.userSize⟩
          ⟨b.id, b.bounds.offsetBy (pushOffset
            ⟨a.id, a.bounds, a.bounds, 0, none, a.userSize⟩
            ⟨b.id, b.bounds, b.bounds, ⊤, none, b.userSize⟩),
          b.bounds, 1, some a.id, b.userSize⟩ =
          (⟨b.id, b.bounds.offsetBy (pushOffset
            ⟨a.id, a.bounds, a.bounds, 0, none, a.userSize⟩
            ⟨b.id, b.bounds, b.bounds, ⊤, none, b.userSize⟩),
          b.bounds, 1, some a.id, b.userSize⟩, false) := by
        rw [pushEach, if_pos rfl]
      have hP1 : pushOne ⟨[⟨a.id, a.bounds, a.bounds, 0, none, a.userSize⟩,
          ⟨b.id, b.bounds, b.bounds, ⊤, none, b.userSize⟩], []⟩ a.id =
          ⟨[⟨a.id, a.bounds, a.bounds, 0, none, a.userSize⟩,
            ⟨b.id, b.bounds.offsetBy (pushOffset
                ⟨a.id, a.bounds, a.bounds, 0, none, a.userSize⟩
                ⟨b.id, b.bounds, b.bounds, ⊤, none, b.userSize⟩),
              b.bounds, 1, some a.id, b.userSize⟩], [b.id]⟩ := by
        rw [pushOne, hlook]
        simp [hAA, hAB]
      have hP2 : pushOne ⟨[⟨a.id, a.bounds, a.bounds, 0, none, a.userSize⟩,
          ⟨b.id, b.bounds.offsetBy (pushOffset
              ⟨a.id, a.bounds, a.bounds, 0, none, a.userSize⟩
              ⟨b.id, b.bounds, b.bounds, ⊤, none, b.userSize⟩),
            b.bounds, 1, some a.id, b.userSize⟩], []⟩ b.id =
          ⟨[⟨a.id, a.bounds, a.bounds, 0, none, a.userSize⟩,
            ⟨b.id, b.bounds.offsetBy (pushOffset
                ⟨a.id, a.bounds, a.bounds, 0, none, a.userSize⟩
                ⟨b.id, b.bounds, b.bounds, ⊤, none, b.userSize⟩),
              b.bounds, 1, some a.id, b.userSize⟩], []⟩ := by
        rw [pushOne, hlook2]
        simp [hBA, hBB]
      refine ⟨⟨a.id, a.bounds, a.bounds, 0, none, a.userSize⟩,
        ⟨b.id, b.bounds.offsetBy (pushOffset
            ⟨a.id, a.bounds, a.bounds, 0, none, a.userSize⟩
            ⟨b.id, b.bounds, b.bounds, ⊤, none, b.userSize⟩),
          b.bounds, 1, some a.id, b.userSize⟩, ?_, rfl, rfl, ?_⟩
      · rw [hinit]
        rw [show (4 : ℕ) = 3 + 1 from rfl, propagate_cons, hP1,
          show (3 : ℕ) = 2 + 1 from rfl, propagate_cons, hP2,
          propagate_of_queue_nil 2 _ rfl]
      · have hd := pushEach_disjoint
          ⟨a.id, a.bounds, a.bounds, 0, none, a.userSize⟩
          ⟨b.id, b.bounds, b.bounds, ⊤, none, b.userSize⟩
          hba (by simp) hI
        rw [hAB] at hd
        rw [intersects_comm]
        exact hd
    · have hAB : pushEach ⟨a.id, a.bounds, a.bounds, 0, none, a.userSize⟩
          ⟨b.id, b.bounds, b.bounds, ⊤, none, b.userSize⟩ =
          (⟨b.id, b.bounds, b.bounds, ⊤, none, b.userSize⟩, false) := by
        rw [pushEach, if_neg hba, if_neg (by simp), if_neg hI]
      have hP1 : pushOne ⟨[⟨a.id, a.bounds, a.bounds, 0, none, a.userSize⟩,
          ⟨b.id, b.bounds, b.bounds, ⊤, none, b.userSize⟩], []⟩ a.id =
          ⟨[⟨a.id, a.bounds, a.bounds, 0, none, a.userSize⟩,
            ⟨b.id, b.bounds, b.bounds, ⊤, none, b.userSize⟩], []⟩ := by
        rw [pushOne, hlook]
        simp [hAA, hAB]
      refine ⟨⟨a.id, a.bounds, a.bounds, 0, none, a.userSize⟩,
        ⟨b.id, b.bounds, b.bounds, ⊤, none, b.userSize⟩, ?_, rfl, rfl, ?_⟩
      · rw [hinit]
        rw [show (4 : ℕ) = 3 + 1 from rfl, propagate_cons, hP1,
          propagate_of_queue_nil 3 _ rfl]
      · rw [intersects_comm]
        exact bool_eq_false hI
  · -- the seed is `b`
    have hinit : initPush [a, b] b.id =
        ⟨[⟨a.id, a.bounds, a.bounds, ⊤, none, a.userSize⟩,
          ⟨b.id, b.bounds, b.bounds, 0, none, b.userSize⟩], [b.id]⟩ := by
      simp [initPush, hab]
    have hlook : lookup [⟨a.id, a.bounds, a.bounds, ⊤, none, a.userSize⟩,
        (⟨b.id, b.bounds, b.bounds, 0, none, b.userSize⟩ : PItem)] b.id =
        some ⟨b.id, b.bounds, b.bounds, 0, none, b.userSize⟩ := by
      simp [lookup, List.find?, hbeqab]
    by_cases hI : (inflated a.bounds).intersects (inflated b.bounds) = true
    · have hBA : pushEach ⟨b.id, b.bounds, b.bounds, 0, none, b.userSize⟩
          ⟨a.id, a.bounds, a.bounds, ⊤, none, a.userSize⟩ =
          (⟨a.id, a.bounds.offsetBy (pushOffset
              ⟨b.id, b.bounds, b.bounds, 0, none, b.userSize⟩
              ⟨a.id, a.bounds, a.bounds, ⊤, none, a.userSize⟩),
            a.bounds, 1, some b.id, a.userSize⟩, true) :=
        pushEach_push _ _ hab (by simp) hI
      have hBB : pushEach ⟨b.id, b.bounds, b.bounds, 0, none, b.userSize⟩
          ⟨b.id, b.bounds, b.bounds, 0, none, b.userSize⟩ =
          (⟨b.id, b.bounds, b.bounds, 0, none, b.userSize⟩, false) := by
        rw [pushEach, if_pos rfl]
      have hlook2 : lookup [(⟨a.id, a.bounds.offsetBy (pushOffset
              ⟨b.id, b.bounds, b.bounds, 0, none, b.userSize⟩
              ⟨a.id, a.bounds, a.bounds, ⊤, none, a.userSize⟩),
            a.bounds, 1, some b.id, a.userSize⟩ : PItem),
          ⟨b.id, b.bounds, b.bounds, 0, none, b.userSize⟩] a.id =
          some ⟨a.id, a.bounds.offsetBy (pushOffset
              ⟨b.id, b.bounds, b.bounds, 0, none, b.userSize⟩
              ⟨a.id, a.bounds, a.bounds, ⊤, none, a.userSize⟩),
            a.bounds, 1, some b.id, a.userSize⟩ := by
        simp [lookup, List.find?]
      have hAA2 : pushEach ⟨a.id, a.bounds.offsetBy (pushOffset
            ⟨b.id, b.bounds, b.bounds, 0, none, b.userSize⟩
            ⟨a.id, a.bounds, a.bounds, ⊤, none, a.userSize⟩),
          a.bounds, 1, some b.id, a.userSize⟩
          ⟨a.id, a.bounds.offsetBy (pushOffset
            ⟨b.id, b.bounds, b.bounds, 0, none, b.userSize⟩
            ⟨a.id, a.bounds, a.bounds, ⊤, none, a.userSize⟩),
          a.bounds, 1, some b.id, a.userSize⟩ =
          (⟨a.id, a.bounds.offsetBy (pushOffset
            ⟨b.id, b.bounds, b.bounds, 0, none, b.userSize⟩
            ⟨a.id, a.bounds, a.bounds, ⊤, none, a.userSize⟩),
          a.bounds, 1, some b.id, a.userSize⟩, false) := by
        rw [pushEach, if_pos rfl]
      have hAB2 : pushEach ⟨a.id, a.bounds.offsetBy (pushOffset
            ⟨b.id, b.bounds, b.bounds, 0, none, b.userSize⟩
            ⟨a.id, a.bounds, a.bounds, ⊤, none, a.userSize⟩),
          a.bounds, 1, some b.id, a.userSize⟩
          ⟨b.id, b.bounds, b.bounds, 0, none, b.userSize⟩ =
          (⟨b.id, b.bounds, b.bounds, 0, none, b.userSize⟩, false) := by
        rw [pushEach, if_neg hba, if_pos (by simp)]
      have hP1 : pushOne ⟨[⟨a.id, a.bounds, a.bounds, ⊤, none, a.userSize⟩,
          ⟨b.id, b.bounds, b.bounds, 0, none, b.userSize⟩], []⟩ b.id =
          ⟨[⟨a.id, a.bounds.offsetBy (pushOffset
              ⟨b.id, b.bounds, b.bounds, 0, none, b.userSize⟩
              ⟨a.id, a.bounds, a.bounds, ⊤, none, a.userSize⟩),
            a.bounds, 1, some b.id, a.userSize⟩,
            ⟨b.id, b.bounds, b.bounds, 0, none, b.userSize⟩], [a.id]⟩ := by
        rw [pushOne, hlook]
        simp [hBA, hBB]
      have hP2 : pushOne ⟨[⟨a.id, a.bounds.offsetBy (pushOffset
              ⟨b.id, b.bounds, b.bounds, 0, none, b.userSize⟩
              ⟨a.id, a.bounds, a.bounds, ⊤, none, a.userSize⟩),
            a.bounds, 1, some b.id, a.userSize⟩,
          ⟨b.id, b.bounds, b.bounds, 0, none, b.userSize⟩], []⟩ a.id =
          ⟨[⟨a.id, a.bounds.offsetBy (pushOffset
              ⟨b.id, b.bounds, b.bounds, 0, none, b.userSize⟩
              ⟨a.id, a.bounds, a.bounds, ⊤, none, a.userSize⟩),
            a.bounds, 1, some b.id, a.userSize⟩,
            ⟨b.id, b.bounds, b.bounds, 0, none, b.userSize⟩], []⟩ := by
        rw [pushOne, hlook2]
        simp [hAA2, hAB2]
      refine ⟨⟨a.id, a.bounds.offsetBy (pushOffset
            ⟨b.id, b.bounds, b.bounds, 0, none, b.userSize⟩
            ⟨a.id, a.bounds, a.bounds, ⊤, none, a.userSize⟩),
          a.bounds, 1, some b.id, a.userSize⟩,
        ⟨b.id, b.bounds, b.bounds, 0, none, b.userSize⟩, ?_, rfl, rfl, ?_⟩
      · rw [hinit]
        rw [show (4 : ℕ) = 3 + 1 from rfl, propagate_cons, hP1,
          show (3 : ℕ) = 2 + 1 from rfl, propagate_cons, hP2,
          propagate_of_queue_nil 2 _ rfl]
      · have hd := pushEach_disjoint
          ⟨b.id, b.bounds, b.bounds, 0, none, b.userSize⟩
          ⟨a.id, a.bounds, a.bounds, ⊤, none, a.userSize⟩
          hab (by simp) hI
        rw [hBA] at hd
        exact hd
    · have hBA : pushEach ⟨b.id, b.bounds, b.bounds, 0, none, b.userSize⟩
          ⟨a.id, a.bounds, a.bounds, ⊤, none, a.userSize⟩ =
          (⟨a.id, a.bounds, a.bounds, ⊤, none, a.userSize⟩, false) := by
        rw [pushEach, if_neg hab, if_neg (by simp), if_neg hI]
      have hBB : pushEach ⟨b.id, b.bounds, b.bounds, 0, none, b.userSize⟩
          ⟨b.id, b.bounds, b.bounds, 0, none, b.userSize⟩ =
          (⟨b.id, b.bounds, b.bounds, 0, none, b.userSize⟩, false) := by
        rw [pushEach, if_pos rfl]
      have hP1 : pushOne ⟨[⟨a.id, a.bounds, a.bounds, ⊤, none, a.userSize⟩,
          ⟨b.id, b.bounds, b.bounds, 0, none, b.userSize⟩], []⟩ b.id =
          ⟨[⟨a.id, a.bounds, a.bounds, ⊤, none, a.userSize⟩,
            ⟨b.id, b.bounds, b.bounds, 0, none, b.userSize⟩], []⟩ := by
        rw [pushOne, hlook]
        simp [hBA, hBB]
      refine ⟨⟨a.id, a.bounds, a.bounds, ⊤, none, a.userSize⟩,
        ⟨b.id, b.bounds, b.bounds, 0, none, b.userSize⟩, ?_, rfl, rfl, ?_⟩
      · rw [hinit]
        rw [show (4 : ℕ) = 3 + 1 from rfl, propagate_cons, hP1,
          propagate_of_queue_nil 3 _ rfl]
      · exact bool_eq_false hI

/-- **C2 (amended).** For a two-item set whose items meet the global
minimum size, if the propagation phase leaves both items within the safe
window bounds (so the squish pass does not act), then after the complete
`pushAway` pass no two items' committed bounds intersect.  (The
counterexample shows the original claim fails for three items even with
page bounds far larger than all minimum sizes, because two items pushed by
the same base in one step never re-examine each other; a second
counterexample family uses the squish minimum-size clamp.) -/
theorem pushAway_two_items_disjoint (pageBounds : Rect) (a b : Item0)
    (seedId : ℕ) (hab : a.id ≠ b.id) (hs : seedId = a.id ∨ seedId = b.id)
    (hminA : minItemWidth ≤ a.bounds.width ∧ minItemHeight ≤ a.bounds.height)
    (hminB : minItemWidth ≤ b.bounds.width ∧ minItemHeight ≤ b.bounds.height)
    (hwithin : ∀ i ∈ (propagate ([a, b].length ^ [a, b].length)
        (initPush [a, b] seedId)).items, i.bounds.within pageBounds = true) :
    ∀ i ∈ pushAwayRun pageBounds [a, b] seedId,
      ∀ j ∈ pushAwayRun pageBounds [a, b] seedId,
        i.id ≠ j.id → i.bounds.intersects j.bounds = false := by
  obtain ⟨A, B, hprop, hAid, hBid, hdisj⟩ := propagate_two a b seedId hab hs
  have hw : ∀ i ∈ [A, B], i.bounds.within pageBounds = true := by
    intro i hi
    apply hwithin
    rw [hprop]
    exact hi
  have hd0 : Disjoint2 [A, B] := by
    intro i hi j hj hne
    simp only [List.mem_cons, List.not_mem_nil, or_false] at hi hj
    rcases hi with rfl | rfl <;> rcases hj with rfl | rfl
    · exact absurd rfl hne
    · exact intersects_of_inflated_false _ _ hdisj
    · rw [intersects_comm]
      exact intersects_of_inflated_false _ _ hdisj
    · exact absurd rfl hne
  have hmin0 : MinSized [A, B] := by
    have hinit : MinSized (initPush [a, b] seedId).items := by
      intro i hi
      simp only [initPush, List.map_cons, List.map_nil, List.mem_cons,
        List.not_mem_nil, or_false] at hi
      rcases hi with rfl | rfl
      · exact hminA
      · exact hminB
    have := propagate_minSized ([a, b].length ^ [a, b].length) _ hinit
    rw [hprop] at this
    exact this
  rw [pushAwayRun, if_neg (by simp)]
  simp only
  rw [hprop]
  simp only
  rw [squish_noop pageBounds [A, B] hw]
  have hd1 := unsquish_disjoint pageBounds [A, B] hd0
  have hmin1 : MinSized (unsquish pageBounds [A, B]) :=
    unsquish_minSized pageBounds [A, B] hmin0
  intro i hi j hj hne
  obtain ⟨i0, hi0, rfl⟩ := List.mem_map.mp hi
  obtain ⟨j0, hj0, rfl⟩ := List.mem_map.mp hj
  have hci := commitItem_preserves i0 (hmin1 i0 hi0)
  have hcj := commitItem_preserves j0 (hmin1 j0 hj0)
  rw [hci.1, hcj.1]
  apply hd1 i0 hi0 j0 hj0
  rw [hci.2, hcj.2] at hne
  exact hne

unseal Rat.add Rat.sub Rat.mul Rat.inv Rat.ofScientific in
/-- Witness for C2 (amended): two overlapping 200×200 items on a
1000×1000 page; the seed pushes the other to edge-adjacency and the final
bounds are disjoint. -/
theorem pushAway_two_items_disjoint_witness :
    ((⟨1, ⟨100, 100, 200, 200⟩, none⟩ : Item0).id ≠
        (⟨2, ⟨250, 100, 200, 200⟩, none⟩ : Item0).id) ∧
    (∀ i ∈ (propagate
        (([(⟨1, ⟨100, 100, 200, 200⟩, none⟩ : Item0),
            ⟨2, ⟨250, 100, 200, 200⟩, none⟩].length) ^
          ([(⟨1, ⟨100, 100, 200, 200⟩, none⟩ : Item0),
            ⟨2, ⟨250, 100, 200, 200⟩, none⟩].length))
        (initPush [⟨1, ⟨100, 100, 200, 200⟩, none⟩,
          ⟨2, ⟨250, 100, 200, 200⟩, none⟩] 1)).items,
      i.bounds.within ⟨0, 0, 1000, 1000⟩ = true) ∧
    (∀ i ∈ pushAwayRun ⟨0, 0, 1000, 1000⟩
        [⟨1, ⟨100, 100, 200, 200⟩, none⟩, ⟨2, ⟨250, 100, 200, 200⟩, none⟩] 1,
      ∀ j ∈ pushAwayRun ⟨0, 0, 1000, 1000⟩
          [⟨1, ⟨100, 100, 200, 200⟩, none⟩, ⟨2, ⟨250, 100, 200, 200⟩, none⟩] 1,
        i.id ≠ j.id → i.bounds.intersects j.bounds = false) :=
  ⟨by decide, by decide,
    pushAway_two_items_disjoint ⟨0, 0, 1000, 1000⟩
      ⟨1, ⟨100, 100, 200, 200⟩, none⟩ ⟨2, ⟨250, 100, 200, 200⟩, none⟩ 1
      (by decide) (Or.inl rfl) (by decide) (by decide) (by decide)⟩

/-! ### C1: termination of the propagation loop

The loop terminates because generations pop in nondecreasing order and an
item with finite generation `g` can only be re-pushed by a base of
generation `g - 1` (the guard skips bases of generation `≥ g`), which
leaves its generation unchanged; new queue entries always carry a strictly
larger generation than the entry popped for them, generations are bounded
by the item count (the set of assigned generations is an initial segment
of `ℕ` and each item holds one), and so the weighted queue measure
`Σ N^(N - generation)` strictly decreases at every pop. -/

theorem pushEach_id (base i : PItem) : (pushEach base i).1.id = i.id := by
  rw [pushEach]
  split
  · rfl
  · split
    · rfl
    · split
      · rfl
      · rfl

theorem pushEach_of_le (base i : PItem)
    (h : i.generation ≤ base.generation) : pushEach base i = (i, false) := by
  by_cases hid : i.id = base.id
  · rw [pushEach, if_pos hid]
  · rw [pushEach, if_neg hid, if_pos h]

theorem pushEach_gen_cases (base i : PItem) :
    ((pushEach base i).1 = i ∧ (pushEach base i).2 = false) ∨
    (¬ i.generation ≤ base.generation ∧ (pushEach base i).2 = true ∧
      (pushEach base i).1.generation = base.generation + 1) := by
  rw [pushEach]
  split
  · exact Or.inl ⟨rfl, rfl⟩
  · split
    · next h => exact Or.inl ⟨rfl, rfl⟩
    · next h =>
      split
      · exact Or.inr ⟨h, rfl, rfl⟩
      · exact Or.inl ⟨rfl, rfl⟩

theorem lookup_map_id_preserving (l : List PItem) (f : PItem → PItem)
    (hf : ∀ i, (f i).id = i.id) (id : ℕ) :
    lookup (l.map f) id = (lookup l id).map f := by
  induction l with
  | nil => rfl
  | cons a rest ih =>
    simp only [lookup, List.map_cons]
    by_cases h : (a.id == id) = true
    · rw [@List.find?_cons_of_pos _ (fun i => i.id == id) (f a)
          (List.map f rest) (by simp only [hf a]; exact h),
        @List.find?_cons_of_pos _ (fun i => i.id == id) a rest h]
      rfl
    · rw [@List.find?_cons_of_neg _ (fun i => i.id == id) (f a)
          (List.map f rest) (by simp only [hf a]; exact h),
        @List.find?_cons_of_neg _ (fun i => i.id == id) a rest h]
      exact ih

/-- The current generation of the item with the given id (`⊤` when the id
is unknown; queued ids are always known under the loop invariant). -/
def genOf (st : PropState) (id : ℕ) : ℕ∞ :=
  match lookup st.items id with
  | some i => i.generation
  | none => ⊤

/-- Weight of one queue entry: `N ^ (N - generation)`. -/
def genWeight (N : ℕ) : ℕ∞ → ℕ :=
  WithTop.recTopCoe 0 (fun n => N ^ (N - n))

/-- The termination measure: total weight of the queue. -/
def measureQ (st : PropState) : ℕ :=
  (st.queue.map (fun id => genWeight st.items.length (genOf st id))).sum

/-- The propagation-loop invariant: registered ids are unique, queued ids
denote known items of finite generation, queue generations are
nondecreasing and pairwise within one of each other, every finite
generation in the system is at most one above every queued generation,
and the set of assigned generations is downward closed. -/
structure Inv (st : PropState) : Prop where
  nodup : (st.items.map PItem.id).Nodup
  queued : ∀ id ∈ st.queue, ∃ i ∈ st.items, i.id = id ∧ i.generation ≠ ⊤
  sortedGens : List.Sorted (· ≤ ·) (st.queue.map (genOf st))
  within1 : ∀ x ∈ st.queue, ∀ y ∈ st.queue, genOf st x ≤ genOf st y + 1
  bounded : ∀ i ∈ st.items, i.generation ≠ ⊤ →
    ∀ y ∈ st.queue, i.generation ≤ genOf st y + 1
  closed : ∀ i ∈ st.items, ∀ g : ℕ, i.generation = (g : ℕ∞) →
    ∀ g' ≤ g, ∃ j ∈ st.items, j.generation = ((g' : ℕ) : ℕ∞)

theorem lookup_of_mem_nodup (l : List PItem) (i : PItem) (id : ℕ)
    (hmem : i ∈ l) (hid : i.id = id) (hnd : (l.map PItem.id).Nodup) :
    lookup l id = some i := by
  induction l with
  | nil => cases hmem
  | cons a rest ih =>
    rcases List.mem_cons.mp hmem with rfl | hmem'
    · exact List.find?_cons_of_pos _ (by rw [hid]; exact beq_self_eq_true id)
    · have hane : ¬ a.id = id := by
        intro h
        have : a.id ∈ rest.map PItem.id :=
          List.mem_map.mpr ⟨i, hmem', by rw [hid, h]⟩
        exact (List.nodup_cons.mp hnd).1 this
      have := ih hmem' ((List.nodup_cons.mp hnd).2)
      rw [lookup] at this ⊢
      rw [List.find?_cons_of_neg _ (by simpa using hane)]
      exact this

theorem pushOne_items (st : PropState) (baseId : ℕ) (base : PItem)
    (hl : lookup st.items baseId = some base) :
    (pushOne st baseId).items =
      st.items.map (fun i => (pushEach base i).1) := by
  rw [pushOne, hl]
  simp [List.map_map, Function.comp]

theorem pushOne_queue (st : PropState) (baseId : ℕ) (base : PItem)
    (hl : lookup st.items baseId = some base) :
    (pushOne st baseId).queue =
      st.queue ++
        ((st.items.map (pushEach base)).filter Prod.snd).map
          (fun p => p.1.id) := by
  rw [pushOne, hl]

theorem genOf_pushOne (st : PropState) (baseId : ℕ) (base : PItem)
    (hl : lookup st.items baseId = some base) (id : ℕ) :
    genOf (pushOne st baseId) id =
      match lookup st.items id with
      | some i => (pushEach base i).1.generation
      | none => (⊤ : ℕ∞) := by
  rw [genOf, pushOne_items st baseId base hl,
    lookup_map_id_preserving st.items _ (fun i => pushEach_id base i) id]
  cases lookup st.items id with
  | none => rfl
  | some i => rfl

theorem pushOne_items_length (st : PropState) (baseId : ℕ) :
    (pushOne st baseId).items.length = st.items.length := by
  rw [pushOne]
  cases lookup st.items baseId with
  | none => rfl
  | some base => simp

theorem sum_map_const {α : Type} (l : List α) (f : α → ℕ) (c : ℕ)
    (h : ∀ x ∈ l, f x = c) : (l.map f).sum = l.length * c := by
  induction l with
  | nil => simp
  | cons a rest ih =>
    simp only [List.map_cons, List.sum_cons, List.length_cons]
    rw [h a (List.mem_cons_self a rest),
      ih (fun x hx => h x (List.mem_cons_of_mem _ hx))]
    ring

theorem sorted_map_const {α : Type} (l : List α) (c : ℕ∞) :
    List.Sorted (· ≤ ·) (l.map (fun _ => c)) := by
  induction l with
  | nil => exact List.sorted_nil
  | cons a rest ih =>
    rw [List.map_cons, List.sorted_cons]
    exact ⟨fun b hb => by
      obtain ⟨x, -, rfl⟩ := List.mem_map.mp hb
      exact le_refl c, ih⟩

/-- Generations are bounded by the item count: the assigned generations
form an initial segment of `ℕ` and distinct generations live on distinct
registered items. -/
theorem gen_lt_card (st : PropState) (hinv : Inv st) (i : PItem)
    (hmem : i ∈ st.items) (g : ℕ) (hg : i.generation = (g : ℕ∞)) :
    g < st.items.length := by
  classical
  have hwit : ∀ k : ℕ, k ≤ g → ∃ j ∈ st.items, j.generation = (k : ℕ∞) :=
    fun k hk => hinv.closed i hmem g hg k hk
  choose wit hwit_mem hwit_gen using hwit
  have hinj := List.inj_on_of_nodup_map hinv.nodup
  have hcard : (Finset.range (g + 1)).card ≤
      ((st.items.map PItem.id).toFinset).card := by
    apply Finset.card_le_card_of_injOn
      (fun k => if h : k ≤ g then (wit k h).id else 0)
    · intro k hk
      have hk' : k ≤ g := by
        have := Finset.mem_range.mp hk
        omega
      rw [dif_pos hk']
      rw [List.mem_toFinset]
      exact List.mem_map.mpr ⟨wit k hk', hwit_mem k hk', rfl⟩
    · intro k1 hk1 k2 hk2 heq
      have hk1' : k1 ≤ g := by
        have := Finset.mem_range.mp (Finset.mem_coe.mp hk1)
        omega
      have hk2' : k2 ≤ g := by
        have := Finset.mem_range.mp (Finset.mem_coe.mp hk2)
        omega
      dsimp only at heq
      rw [dif_pos hk1', dif_pos hk2'] at heq
      have := hinj (hwit_mem k1 hk1') (hwit_mem k2 hk2') heq
      have hgen := hwit_gen k2 hk2'
      rw [← this, hwit_gen k1 hk1'] at hgen
      exact_mod_cast hgen
  have h1 : (Finset.range (g + 1)).card = g + 1 := Finset.card_range _
  have h2 : ((st.items.map PItem.id).toFinset).card ≤
      (st.items.map PItem.id).length := (st.items.map PItem.id).toFinset_card_le
  rw [List.length_map] at h2
  omega

theorem enat_exists_coe (a : ℕ∞) (h : a ≠ ⊤) : ∃ n : ℕ, a = (n : ℕ∞) := by
  lift a to ℕ using h
  exact ⟨a, rfl⟩

theorem enat_coe_add_one_ne_top (n : ℕ) : ((n : ℕ∞) + 1) ≠ ⊤ := by
  have h : ((n : ℕ∞) + 1) = ((n + 1 : ℕ) : ℕ∞) := by push_cast; ring
  rw [h]
  exact ENat.coe_ne_top (n + 1)

theorem length_filter_lt {α : Type} (l : List α) (p : α → Bool) (x : α)
    (hx : x ∈ l) (hpx : p x = false) : (l.filter p).length < l.length := by
  induction l with
  | nil => cases hx
  | cons a rest ih =>
    rcases List.mem_cons.mp hx with rfl | hx'
    · have hle := List.length_filter_le p rest
      simp [List.filter_cons, hpx]
      omega
    · cases hpa : p a
      · have := ih hx'
        simp [List.filter_cons, hpa]
        omega
      · have := ih hx'
        simp [List.filter_cons, hpa]
        omega

/-- One pop of the propagation loop (`pushOne(itemsToPush.shift())`)
preserves the loop invariant and strictly decreases the queue measure. -/
theorem propStep_spec (st : PropState) (b : ℕ) (rest : List ℕ)
    (hq : st.queue = b :: rest) (hinv : Inv st) :
    Inv (propStep st) ∧ measureQ (propStep st) < measureQ st := by
  classical
  have hbq : b ∈ st.queue := by rw [hq]; exact List.mem_cons_self b rest
  obtain ⟨ib, hib_mem, hib_id, hib_fin⟩ := hinv.queued b hbq
  obtain ⟨n, hn⟩ := enat_exists_coe ib.generation hib_fin
  have hl : lookup st.items b = some ib :=
    lookup_of_mem_nodup st.items ib b hib_mem hib_id hinv.nodup
  have hstep : propStep st = pushOne { st with queue := rest } b := by
    rw [propStep.eq_def, hq]
  have hl' : lookup ({ st with queue := rest } : PropState).items b = some ib := hl
  have hPitems : (propStep st).items =
      st.items.map (fun i => (pushEach ib i).1) := by
    rw [hstep]; exact pushOne_items _ b ib hl'
  have hPlen : (propStep st).items.length = st.items.length := by
    rw [hstep]; exact pushOne_items_length _ b
  have hPgen : ∀ id, genOf (propStep st) id =
      match lookup st.items id with
      | some i => (pushEach ib i).1.generation
      | none => (⊤ : ℕ∞) := by
    intro id
    rw [hstep]; exact genOf_pushOne _ b ib hl' id
  have hgb : genOf st b = (n : ℕ∞) := by
    rw [genOf, hl]; exact hn
  -- every finite generation in the system is at most n + 1
  have hballn : ∀ i ∈ st.items, i.generation ≠ ⊤ →
      i.generation ≤ (n : ℕ∞) + 1 := by
    intro i hi hfin
    have h := hinv.bounded i hi hfin b hbq
    rwa [hgb] at h
  -- pushEach never changes an already finite generation value
  have hgenfix : ∀ i ∈ st.items, i.generation ≠ ⊤ →
      (pushEach ib i).1.generation = i.generation := by
    intro i hi hfin
    rcases pushEach_gen_cases ib i with ⟨he, -⟩ | ⟨hgt, -, hgen⟩
    · rw [he]
    · have h1 : (n : ℕ∞) < i.generation := by
        rw [hn] at hgt; exact lt_of_not_le hgt
      have h2 : i.generation ≤ (n : ℕ∞) + 1 := hballn i hi hfin
      have h3 : i.generation = (n : ℕ∞) + 1 :=
        le_antisymm h2 ((ENat.add_one_le_iff (ENat.coe_ne_top n)).mpr h1)
      rw [hgen, hn]
      exact h3.symm
  -- ids of finite generation keep their generation across the pop
  have hgpres : ∀ id, genOf st id ≠ ⊤ →
      genOf (propStep st) id = genOf st id := by
    intro id hfin
    cases hlid : lookup st.items id with
    | none => rw [genOf, hlid] at hfin; exact absurd rfl hfin
    | some i =>
      have hi_mem : i ∈ st.items := List.mem_of_find?_eq_some hlid
      have hifin : i.generation ≠ ⊤ := by rw [genOf, hlid] at hfin; exact hfin
      rw [hPgen id, genOf, hlid]
      exact hgenfix i hi_mem hifin
  have hqfin : ∀ x ∈ st.queue, genOf st x ≠ ⊤ := by
    intro x hx
    obtain ⟨i, hi, hix, hfin⟩ := hinv.queued x hx
    rw [genOf, lookup_of_mem_nodup st.items i x hi hix hinv.nodup]
    exact hfin
  have hqlow : ∀ x ∈ rest, (n : ℕ∞) ≤ genOf st x := by
    intro x hx
    have hs := hinv.sortedGens
    rw [hq, List.map_cons] at hs
    have h1 := (List.sorted_cons.mp hs).1 (genOf st x)
      (List.mem_map.mpr ⟨x, hx, rfl⟩)
    rwa [hgb] at h1
  have hqhigh : ∀ x ∈ rest, genOf st x ≤ (n : ℕ∞) + 1 := by
    intro x hx
    have h := hinv.within1 x (by rw [hq]; exact List.mem_cons_of_mem b hx) b hbq
    rwa [hgb] at h
  -- the pushed tail of the new queue, abstracted
  obtain ⟨pushed, hPqueue, hpush, hplen⟩ :
      ∃ ps : List ℕ, (propStep st).queue = rest ++ ps ∧
        (∀ id' ∈ ps, ∃ i ∈ st.items, i.id = id' ∧ (pushEach ib i).2 = true ∧
          (pushEach ib i).1.generation = (n : ℕ∞) + 1) ∧
        ps.length + 1 ≤ st.items.length := by
    refine ⟨_, by rw [hstep]; exact pushOne_queue _ b ib hl', ?_, ?_⟩
    · intro id' hid'
      obtain ⟨p, hp, hpid⟩ := List.mem_map.mp hid'
      obtain ⟨hp_mem, hp_snd⟩ := List.mem_filter.mp hp
      obtain ⟨i, hi_mem, hpi⟩ := List.mem_map.mp hp_mem
      subst hpi
      rcases pushEach_gen_cases ib i with ⟨-, hf⟩ | ⟨-, -, hgen⟩
      · rw [hf] at hp_snd; exact Bool.noConfusion hp_snd
      · refine ⟨i, hi_mem, ?_, ?_, ?_⟩
        · rw [← pushEach_id ib i]; exact hpid
        · exact hp_snd
        · rw [hgen, hn]
    · dsimp only
      have hself : pushEach ib ib = (ib, false) := pushEach_of_le ib ib (le_refl _)
      have hmm : pushEach ib ib ∈ st.items.map (pushEach ib) :=
        List.mem_map.mpr ⟨ib, hib_mem, rfl⟩
      have hlt := length_filter_lt (st.items.map (pushEach ib)) Prod.snd
        (pushEach ib ib) hmm (by rw [hself])
      rw [List.length_map] at hlt
      rw [List.length_map]
      omega
  have hgnew : ∀ id' ∈ pushed, genOf (propStep st) id' = (n : ℕ∞) + 1 := by
    intro id' hid'
    obtain ⟨i, hi_mem, hiid, -, hgen⟩ := hpush id' hid'
    rw [hPgen id', lookup_of_mem_nodup st.items i id' hi_mem hiid hinv.nodup]
    exact hgen
  have hval : ∀ y ∈ (propStep st).queue,
      (n : ℕ∞) ≤ genOf (propStep st) y ∧
      genOf (propStep st) y ≤ (n : ℕ∞) + 1 ∧ genOf (propStep st) y ≠ ⊤ := by
    intro y hy
    rw [hPqueue] at hy
    rcases List.mem_append.mp hy with hy | hy
    · have hyq : y ∈ st.queue := by rw [hq]; exact List.mem_cons_of_mem b hy
      have hfin := hqfin y hyq
      have heq := hgpres y hfin
      exact ⟨by rw [heq]; exact hqlow y hy, by rw [heq]; exact hqhigh y hy,
        by rw [heq]; exact hfin⟩
    · have heq := hgnew y hy
      exact ⟨by rw [heq]; exact le_self_add, le_of_eq heq,
        by rw [heq]; exact enat_coe_add_one_ne_top n⟩
  have hids : (propStep st).items.map PItem.id = st.items.map PItem.id := by
    rw [hPitems, List.map_map]
    exact List.map_congr_left (fun i _ => pushEach_id ib i)
  -- generation transport for the downward-closure field
  have htrans : ∀ g' : ℕ, (∃ j ∈ st.items, j.generation = (g' : ℕ∞)) →
      ∃ j ∈ (propStep st).items, j.generation = (g' : ℕ∞) := by
    intro g' hj
    obtain ⟨j, hj_mem, hj_gen⟩ := hj
    refine ⟨(pushEach ib j).1,
      by rw [hPitems]; exact List.mem_map.mpr ⟨j, hj_mem, rfl⟩, ?_⟩
    have hjfin : j.generation ≠ ⊤ := by rw [hj_gen]; exact ENat.coe_ne_top g'
    rw [hgenfix j hj_mem hjfin]
    exact hj_gen
  refine ⟨⟨?_, ?_, ?_, ?_, ?_, ?_⟩, ?_⟩
  -- nodup
  · rw [hids]; exact hinv.nodup
  -- queued
  · intro id hid
    rw [hPqueue] at hid
    rcases List.mem_append.mp hid with hid | hid
    · obtain ⟨i, hi_mem, hiid, hifin⟩ := hinv.queued id
        (by rw [hq]; exact List.mem_cons_of_mem b hid)
      refine ⟨(pushEach ib i).1, ?_, ?_, ?_⟩
      · rw [hPitems]; exact List.mem_map.mpr ⟨i, hi_mem, rfl⟩
      · rw [pushEach_id]; exact hiid
      · rw [hgenfix i hi_mem hifin]; exact hifin
    · obtain ⟨i, hi_mem, hiid, -, hgen⟩ := hpush id hid
      refine ⟨(pushEach ib i).1, ?_, ?_, ?_⟩
      · rw [hPitems]; exact List.mem_map.mpr ⟨i, hi_mem, rfl⟩
      · rw [pushEach_id]; exact hiid
      · rw [hgen]; exact enat_coe_add_one_ne_top n
  -- sortedGens
  · rw [hPqueue, List.map_append]
    refine List.pairwise_append.mpr ⟨?_, ?_, ?_⟩
    · have hcong : rest.map (genOf (propStep st)) = rest.map (genOf st) :=
        List.map_congr_left (fun x hx => hgpres x
          (hqfin x (by rw [hq]; exact List.mem_cons_of_mem b hx)))
      rw [hcong]
      have hs := hinv.sortedGens
      rw [hq, List.map_cons] at hs
      exact (List.sorted_cons.mp hs).2
    · have hcong : pushed.map (genOf (propStep st)) =
          pushed.map (fun _ => (n : ℕ∞) + 1) :=
        List.map_congr_left (fun x hx => hgnew x hx)
      rw [hcong]
      exact sorted_map_const pushed ((n : ℕ∞) + 1)
    · intro x hx y hy
      obtain ⟨x1, hx1, rfl⟩ := List.mem_map.mp hx
      obtain ⟨y1, hy1, rfl⟩ := List.mem_map.mp hy
      have h1 := (hval x1
        (by rw [hPqueue]; exact List.mem_append.mpr (Or.inl hx1))).2.1
      rw [hgnew y1 hy1]
      exact h1
  -- within1
  · intro x hx y hy
    have hvx := (hval x hx).2.1
    have hvy := (hval y hy).1
    exact le_trans hvx (add_le_add_right hvy 1)
  -- bounded
  · intro i1 hi1 hfin1 y hy
    rw [hPitems] at hi1
    obtain ⟨i, hi_mem, rfl⟩ := List.mem_map.mp hi1
    have hvy := (hval y hy).1
    have hle : (pushEach ib i).1.generation ≤ (n : ℕ∞) + 1 := by
      rcases pushEach_gen_cases ib i with ⟨he, -⟩ | ⟨-, -, hgen⟩
      · rw [he]
        rw [he] at hfin1
        exact hballn i hi_mem hfin1
      · rw [hgen, hn]
    exact le_trans hle (add_le_add_right hvy 1)
  -- closed
  · intro i1 hi1 g hg g' hg'
    rw [hPitems] at hi1
    obtain ⟨i, hi_mem, rfl⟩ := List.mem_map.mp hi1
    rcases pushEach_gen_cases ib i with ⟨he, -⟩ | ⟨-, -, hgen⟩
    · rw [he] at hg
      obtain ⟨j, hjm, hjg⟩ := hinv.closed i hi_mem g hg g' hg'
      exact htrans g' ⟨j, hjm, hjg⟩
    · rw [hgen, hn] at hg
      have hgeq : g = n + 1 := by
        have h : ((n + 1 : ℕ) : ℕ∞) = (g : ℕ∞) := by push_cast; exact hg
        exact_mod_cast h.symm
      by_cases hg2 : g' = n + 1
      · refine ⟨(pushEach ib i).1,
          by rw [hPitems]; exact List.mem_map.mpr ⟨i, hi_mem, rfl⟩, ?_⟩
        rw [hgen, hn, hg2]
        push_cast
        ring
      · have hg3 : g' ≤ n := by omega
        obtain ⟨j, hjm, hjg⟩ := hinv.closed ib hib_mem n hn g' hg3
        exact htrans g' ⟨j, hjm, hjg⟩
  -- the measure strictly decreases
  · have h1 : rest.map
        (fun id => genWeight st.items.length (genOf (propStep st) id)) =
        rest.map (fun id => genWeight st.items.length (genOf st id)) :=
      List.map_congr_left (fun x hx => by
        rw [hgpres x (hqfin x (by rw [hq]; exact List.mem_cons_of_mem b hx))])
    have h2 : (pushed.map
        (fun id => genWeight st.items.length (genOf (propStep st) id))).sum =
        pushed.length * genWeight st.items.length ((n : ℕ∞) + 1) :=
      sum_map_const pushed _ _ (fun x hx => by rw [hgnew x hx])
    have hMnew : measureQ (propStep st) =
        (rest.map (fun id => genWeight st.items.length (genOf st id))).sum +
          pushed.length * genWeight st.items.length ((n : ℕ∞) + 1) := by
      rw [measureQ, hPqueue]
      simp only [hPlen]
      rw [List.map_append, List.sum_append, h1, h2]
    have hMold : measureQ st =
        genWeight st.items.length ((n : ℕ∞)) +
          (rest.map (fun id => genWeight st.items.length (genOf st id))).sum := by
      rw [measureQ, hq, List.map_cons, List.sum_cons, hgb]
    have hnlt : n < st.items.length := gen_lt_card st hinv ib hib_mem n hn
    have hN : 0 < st.items.length := by omega
    have harith : pushed.length * genWeight st.items.length ((n : ℕ∞) + 1) <
        genWeight st.items.length ((n : ℕ∞)) := by
      have hw1 : genWeight st.items.length ((n : ℕ∞)) =
          st.items.length ^ (st.items.length - n) := by
        rw [genWeight]
        exact WithTop.recTopCoe_coe _ _ n
      have hw2 : genWeight st.items.length ((n : ℕ∞) + 1) =
          st.items.length ^ (st.items.length - (n + 1)) := by
        have hc : ((n : ℕ∞) + 1) = ((n + 1 : ℕ) : ℕ∞) := by push_cast; ring
        rw [genWeight, hc]
        exact WithTop.recTopCoe_coe _ _ (n + 1)
      rw [hw1, hw2]
      have hsub : st.items.length - n = (st.items.length - (n + 1)) + 1 := by
        omega
      rw [hsub, pow_succ]
      have hpow : 0 < st.items.length ^ (st.items.length - (n + 1)) :=
        pow_pos hN _
      have hcount : pushed.length < st.items.length := by omega
      calc pushed.length * st.items.length ^ (st.items.length - (n + 1))
          < st.items.length * st.items.length ^ (st.items.length - (n + 1)) :=
            (Nat.mul_lt_mul_right hpow).mpr hcount
        _ = st.items.length ^ (st.items.length - (n + 1)) * st.items.length :=
            Nat.mul_comm _ _
    rw [hMnew, hMold]
    linarith [harith]

/-- With the invariant holding and fuel at least the queue measure, the
propagation loop drains its queue completely. -/
theorem propagate_empties (fuel : ℕ) (st : PropState) (hinv : Inv st)
    (hm : measureQ st ≤ fuel) : (propagate fuel st).queue = [] := by
  induction fuel generalizing st with
  | zero =>
    rw [propagate]
    cases hq : st.queue with
    | nil => rfl
    | cons x t =>
      exfalso
      obtain ⟨i, hi_mem, hix, hfin⟩ := hinv.queued x
        (by rw [hq]; exact List.mem_cons_self x t)
      have hgx : genOf st x = i.generation := by
        rw [genOf, lookup_of_mem_nodup st.items i x hi_mem hix hinv.nodup]
      obtain ⟨m, hm2⟩ := enat_exists_coe (genOf st x) (by rw [hgx]; exact hfin)
      have hN : 0 < st.items.length :=
        List.length_pos.mpr (List.ne_nil_of_mem hi_mem)
      have hw : 0 < genWeight st.items.length (genOf st x) := by
        rw [hm2, genWeight]
        have he : WithTop.recTopCoe 0
            (fun k => st.items.length ^ (st.items.length - k)) ((m : ℕ∞)) =
            st.items.length ^ (st.items.length - m) :=
          WithTop.recTopCoe_coe _ _ m
        rw [he]
        exact pow_pos hN _
      have hpos : 0 < measureQ st := by
        rw [measureQ, hq, List.map_cons, List.sum_cons]
        omega
      omega
  | succ fuel ih =>
    rw [propagate]
    split
    · next hq => exact hq
    · next hq =>
      cases hq2 : st.queue with
      | nil => exact absurd hq2 hq
      | cons b rest =>
        obtain ⟨hinv2, hdec⟩ := propStep_spec st b rest hq2 hinv
        exact ih (propStep st) hinv2 (by omega)

theorem genWeight_le (N : ℕ) (g : ℕ∞) : genWeight N g ≤ N ^ N := by
  by_cases hg : g = ⊤
  · rw [hg, genWeight, WithTop.recTopCoe_top]
    exact Nat.zero_le _
  · obtain ⟨m, rfl⟩ := enat_exists_coe g hg
    rw [genWeight]
    have he : WithTop.recTopCoe 0 (fun k => N ^ (N - k)) ((m : ℕ∞)) =
        N ^ (N - m) := WithTop.recTopCoe_coe _ _ m
    rw [he]
    rcases Nat.eq_zero_or_pos N with h0 | h1
    · subst h0; simp
    · exact Nat.pow_le_pow_right h1 (Nat.sub_le N m)

/-- The loop invariant holds right after setup and seeding, given the
registration invariant (unique ids) and a registered seed. -/
theorem initPush_inv (items0 : List Item0) (seedId : ℕ)
    (hnd : (items0.map Item0.id).Nodup)
    (hseed : seedId ∈ items0.map Item0.id) :
    Inv (initPush items0 seedId) := by
  obtain ⟨it0, hit0_mem, hit0_id⟩ := List.mem_map.mp hseed
  have hqi : (initPush items0 seedId).queue = [seedId] := rfl
  have hids : (initPush items0 seedId).items.map PItem.id =
      items0.map Item0.id := by
    simp only [initPush, List.map_map]
    rfl
  have hmem0 : ∀ it : Item0, it ∈ items0 →
      (⟨it.id, it.bounds, it.bounds, (if it.id = seedId then 0 else ⊤),
        none, it.userSize⟩ : PItem) ∈ (initPush items0 seedId).items := by
    intro it hit
    rw [initPush]
    exact List.mem_map.mpr ⟨it, hit, rfl⟩
  refine ⟨?_, ?_, ?_, ?_, ?_, ?_⟩
  · rw [hids]; exact hnd
  · intro id hid
    rw [hqi] at hid
    have hid2 : id = seedId := by
      rcases List.mem_cons.mp hid with h | h
      · exact h
      · cases h
    subst hid2
    refine ⟨_, hmem0 it0 hit0_mem, hit0_id, ?_⟩
    dsimp only
    rw [if_pos hit0_id]
    simp
  · rw [hqi, List.map_cons, List.map_nil]
    exact List.sorted_singleton _
  · intro x hx y hy
    rw [hqi] at hx hy
    have hx2 : x = seedId := by
      rcases List.mem_cons.mp hx with h | h
      · exact h
      · cases h
    have hy2 : y = seedId := by
      rcases List.mem_cons.mp hy with h | h
      · exact h
      · cases h
    subst hx2; subst hy2
    exact le_self_add
  · intro i hi hfin y hy
    rw [initPush] at hi
    obtain ⟨it, hit_mem, rfl⟩ := List.mem_map.mp hi
    dsimp only at hfin ⊢
    by_cases hit : it.id = seedId
    · rw [if_pos hit]
      exact zero_le _
    · rw [if_neg hit] at hfin
      exact absurd rfl hfin
  · intro i hi g hg g' hg'
    rw [initPush] at hi
    obtain ⟨it, hit_mem, rfl⟩ := List.mem_map.mp hi
    dsimp only at hg
    by_cases hit : it.id = seedId
    · rw [if_pos hit] at hg
      have hg0 : g = 0 := by exact_mod_cast hg.symm
      have hg2 : g' = 0 := by omega
      refine ⟨_, hmem0 it hit_mem, ?_⟩
      dsimp only
      rw [if_pos hit, hg2]
      exact Nat.cast_zero.symm
    · rw [if_neg hit] at hg
      exact absurd hg.symm (ENat.coe_ne_top g)

/-- At setup the queue measure is exactly the weight of the seed entry,
which never exceeds `N ^ N`. -/
theorem initPush_measure (items0 : List Item0) (seedId : ℕ) :
    measureQ (initPush items0 seedId) ≤ items0.length ^ items0.length := by
  have hlen : (initPush items0 seedId).items.length = items0.length := by
    rw [initPush]
    exact List.length_map _ _
  rw [measureQ]
  have hqi : (initPush items0 seedId).queue = [seedId] := rfl
  rw [hqi, List.map_cons, List.map_nil, List.sum_cons, List.sum_nil, hlen,
    Nat.add_zero]
  exact genWeight_le _ _

/-- C1: for every finite set of registered top-level items (ids unique, as
`Items.register` guarantees) and every registered seed, the breadth-first
push propagation loop of `Item.pushAway` terminates: popping at most
`N ^ N` queue entries (N the number of items) empties the queue, because a
finite-generation item is only ever re-pushed by a strictly older base,
re-pushing never changes its generation, and queue weights strictly
decrease at every pop. -/
theorem pushAway_propagation_terminates (items0 : List Item0) (seedId : ℕ)
    (hnd : (items0.map Item0.id).Nodup)
    (hseed : seedId ∈ items0.map Item0.id) :
    (propagate (items0.length ^ items0.length)
      (initPush items0 seedId)).queue = [] :=
  propagate_empties (items0.length ^ items0.length) (initPush items0 seedId)
    (initPush_inv items0 seedId hnd hseed) (initPush_measure items0 seedId)

unseal Rat.add Rat.sub Rat.mul Rat.inv Rat.ofScientific in
/-- Witness for C1: a concrete three-item chain where the seed pushes its
neighbour and the neighbour pushes the third item; the queue empties
within `3 ^ 3` pops. -/
theorem pushAway_propagation_terminates_witness :
    (([⟨1, ⟨0, 0, 200, 200⟩, none⟩, ⟨2, ⟨150, 0, 200, 200⟩, none⟩,
        ⟨3, ⟨300, 0, 200, 200⟩, none⟩] : List Item0).map Item0.id).Nodup ∧
    1 ∈ ([⟨1, ⟨0, 0, 200, 200⟩, none⟩, ⟨2, ⟨150, 0, 200, 200⟩, none⟩,
        ⟨3, ⟨300, 0, 200, 200⟩, none⟩] : List Item0).map Item0.id ∧
    (propagate (([⟨1, ⟨0, 0, 200, 200⟩, none⟩, ⟨2, ⟨150, 0, 200, 200⟩, none⟩,
          ⟨3, ⟨300, 0, 200, 200⟩, none⟩] : List Item0).length ^
        ([⟨1, ⟨0, 0, 200, 200⟩, none⟩, ⟨2, ⟨150, 0, 200, 200⟩, none⟩,
          ⟨3, ⟨300, 0, 200, 200⟩, none⟩] : List Item0).length)
      (initPush [⟨1, ⟨0, 0, 200, 200⟩, none⟩, ⟨2, ⟨150, 0, 200, 200⟩, none⟩,
        ⟨3, ⟨300, 0, 200, 200⟩, none⟩] 1)).queue = [] :=
  ⟨by decide, by decide,
    pushAway_propagation_terminates
      [⟨1, ⟨0, 0, 200, 200⟩, none⟩, ⟨2, ⟨150, 0, 200, 200⟩, none⟩,
        ⟨3, ⟨300, 0, 200, 200⟩, none⟩] 1 (by decide) (by decide)⟩

end Tabview